import Mathlib

/-!
Verification of the folder-synchronisation program `src/sync_folders.py`.

The program keeps a replica directory tree in sync with a source tree:

* `calculate_md5` reads a file in 4096-byte chunks, feeding each chunk to an
  incrementally updated MD5 object, and returns the digest.
* `sync_folders(source, replica, logger)` first walks the source tree
  (`os.walk(source)`), creating each missing mirrored directory
  (`dirpath.replace(source, replica, 1)`, then `os.makedirs`) and copying
  every file that is absent from the replica or whose MD5 digest differs
  (`shutil.copy2`); it then walks the replica tree and removes every file
  whose inversely mirrored source path does not exist (`os.remove`).
  Each mutation is reported through `logger.info`.  The function contains
  no exception handling of any kind.

Shallow embedding used here:

* A path is the list of characters of its absolute path string (`resolve_path`
  makes all paths absolute before the walk, so we work with absolute strings
  throughout, exactly like the Python code after line 77).
* The filesystem is a finite association list from paths to entries
  (a regular file with byte content, or a directory).  `os.walk` is modelled
  as the list of directory entries below the root in enumeration order,
  and the per-directory file listing as the file entries directly inside a
  directory.  The Python code walks a live generator; the model snapshots
  the listing at the start of each phase, which agrees with the generator
  behaviour whenever the walked tree is not mutated during its own walk
  (phase A mutates only replica-side paths, phase B removes only files,
  which never changes any directory listing of directories).
* Fallible OS calls (`open`/`os.makedirs`/`shutil.copy2`/`os.remove`) are
  modelled with `Except String`; since the Python code has no `try`, the
  run state `St` records the first uncaught exception in `err` and every
  later step leaves the state untouched (the crashed run performs nothing
  further), while the filesystem mutations and log events made before the
  exception persist, exactly as for the real process.
* `hashlib.md5` is an external library; the spec only requires a
  deterministic content digest, so the digest is an explicit function
  parameter `fp : List Nat → List Nat` of the embedding.  The repository's
  own code — the 4096-byte chunked read loop of `calculate_md5` — is
  embedded faithfully: the chunks are accumulated exactly as the successive
  `hash_md5.update(chunk)` calls accumulate them, and the digest function is
  applied to the accumulated stream.
* `logger.info` events are collected in order in the `evs` field of the
  state, one constructor per message format used by the program.
-/

namespace FolderSync

/-- A path: the character list of the absolute path string. -/
abbrev Path := List Char

/-- A filesystem object: a regular file with its byte content, or a directory. -/
inductive Entry
  | file : List Nat → Entry
  | dir : Entry
deriving DecidableEq

/-- The filesystem: a finite association list from absolute paths to entries.
The list order is the (otherwise unspecified) enumeration order of `os.walk`. -/
abbrev Fs := List (Path × Entry)

/-- One `logger.info` event of `sync_folders`: `Created directory: …`,
`Copied file: … to …`, `Removed file: …`. -/
inductive Event
  | created : Path → Event
  | copied : Path → Path → Event
  | removed : Path → Event
deriving DecidableEq

/-- State of one `sync_folders` run: current filesystem, log events emitted so
far, and the first uncaught exception if one was raised (the Python code has no
`try`, so after an exception nothing further executes). -/
structure St where
  fs : Fs
  evs : List Event
  err : Option String
deriving DecidableEq

/-- Look up the entry stored at path `p` (first match). -/
def getEntry (fs : Fs) (p : Path) : Option Entry :=
  match fs with
  | [] => none
  | (q, e) :: rest => if q = p then some e else getEntry rest p

/-- Store entry `e` at path `p`: overwrite the existing binding in place, or
append a new binding at the end of the enumeration order. -/
def setEntry (fs : Fs) (p : Path) (e : Entry) : Fs :=
  match fs with
  | [] => [(p, e)]
  | (q, e0) :: rest => if q = p then (p, e) :: rest else (q, e0) :: setEntry rest p e

/-- Remove the binding of path `p` (`os.remove`, after its checks succeeded). -/
def removeEntry (fs : Fs) (p : Path) : Fs :=
  match fs with
  | [] => []
  | (q, e) :: rest => if q = p then removeEntry rest p else (q, e) :: removeEntry rest p

/-- `os.path.exists`. -/
def existsPath (fs : Fs) (p : Path) : Prop := getEntry fs p ≠ none

instance (fs : Fs) (p : Path) : Decidable (existsPath fs p) := by
  unfold existsPath; infer_instance

/-- `p` lies in the subtree rooted at `root`: it is the root itself or has
`root ++ "/"` as a path prefix. -/
def isUnder (root p : Path) : Prop := p = root ∨ root ++ ['/'] <+: p

instance (root p : Path) : Decidable (isUnder root p) := by
  unfold isUnder; infer_instance

/-- Python `s.replace(old, new, 1)`: replace the first (leftmost) occurrence of
`old` in `s` by `new`; if `old` does not occur, return `s` unchanged.  This is
exactly the path-mapping operation on lines 81 and 96 of the source. -/
def replaceFirst (s old new : Path) : Path :=
  match s with
  | [] => if old <+: ([] : Path) then new else []
  | c :: rest =>
    if old <+: (c :: rest) then new ++ (c :: rest).drop old.length
    else c :: replaceFirst rest old new

/-- The mirrored path: replica root plus the source-relative remainder
(`replicaPath = replicaRoot ++ (sourcePath − sourceRoot)`). -/
def mirrorPath (src rep p : Path) : Path := rep ++ p.drop src.length

/-- The strict ancestors of path `p` at `'/'` boundaries, shortest first.  The
prefix at position 0 is omitted: paths are absolute, so that prefix is the
filesystem root `/`, which always exists and is never created. -/
def ancestorsOf (p : Path) : List Path :=
  (List.range p.length).filterMap fun i =>
    if i ≠ 0 ∧ p.get? i = some '/' then some (p.take i) else none

/-- Worker for `os.makedirs`: create each still-missing path of the list as a
directory, left to right; a path already present as a file makes the call
raise (`NotADirectoryError`/`FileExistsError`). -/
def mkdirsGo (fs : Fs) : List Path → Except String Fs
  | [] => Except.ok fs
  | q :: rest =>
    match getEntry fs q with
    | some Entry.dir => mkdirsGo fs rest
    | some (Entry.file _) => Except.error "NotADirectoryError"
    | none => mkdirsGo (setEntry fs q Entry.dir) rest

/-- `os.makedirs(p)`: create every missing ancestor of `p`, then `p` itself. -/
def makedirsE (fs : Fs) (p : Path) : Except String Fs :=
  mkdirsGo fs (ancestorsOf p ++ [p])

/-- The chunks produced by the loop `iter(lambda: f.read(4096), b"")` of
`calculate_md5`, with an explicit fuel argument to keep the recursion
structural (the fuel is instantiated with the content length, which bounds the
number of reads). -/
def readChunksF : Nat → List Nat → List (List Nat)
  | _, [] => []
  | 0, l => [l]
  | Nat.succ fuel, l => l.take 4096 :: readChunksF fuel (l.drop 4096)

/-- The 4096-byte chunks read from a file with the given byte content. -/
def readChunks (content : List Nat) : List (List Nat) :=
  readChunksF content.length content

/-- The byte stream accumulated by the successive `hash_md5.update(chunk)`
calls: `update` appends each chunk to the stream the digest is taken over. -/
def hashUpdates (chunks : List (List Nat)) : List Nat :=
  chunks.foldl (fun acc chunk => acc ++ chunk) []

/-- `calculate_md5` (lines 58–67): read the file in 4096-byte chunks, feed each
chunk to the incrementally updated digest, return the digest of the
accumulated stream.  The digest function `fp` models `hashlib.md5(...)
.hexdigest()`. -/
def calculate_md5 (fp : List Nat → List Nat) (content : List Nat) : List Nat :=
  fp (hashUpdates (readChunks content))

/-- `calculate_md5` applied to a path: opening a missing path raises
`FileNotFoundError`, opening a directory raises `IsADirectoryError`. -/
def md5E (fp : List Nat → List Nat) (fs : Fs) (p : Path) : Except String (List Nat) :=
  match getEntry fs p with
  | some (Entry.file c) => Except.ok (calculate_md5 fp c)
  | some Entry.dir => Except.error "IsADirectoryError"
  | none => Except.error "FileNotFoundError"

/-- `shutil.copy2(src, dst)`: read the source file and write its content to
`dst`.  Reading a missing path or a directory raises.  In `sync_folders` the
destination is never an existing directory when this is called (the guard on
line 89 either finds `dst` missing, or has already taken `calculate_md5(dst)`
successfully, so `dst` is a file); that unreachable case is mapped to an
error. -/
def copy2E (fs : Fs) (src dst : Path) : Except String Fs :=
  match getEntry fs src with
  | some (Entry.file c) =>
    match getEntry fs dst with
    | some Entry.dir => Except.error "IsADirectoryError"
    | _ => Except.ok (setEntry fs dst (Entry.file c))
  | some Entry.dir => Except.error "IsADirectoryError"
  | none => Except.error "FileNotFoundError"

/-- `os.remove(p)`: delete a file; directories and missing paths raise. -/
def removeE (fs : Fs) (p : Path) : Except String Fs :=
  match getEntry fs p with
  | some (Entry.file _) => Except.ok (removeEntry fs p)
  | some Entry.dir => Except.error "IsADirectoryError"
  | none => Except.error "FileNotFoundError"

/-- The contribution of one filesystem entry to the directory walk below
`root`: the entry's path when it is a directory in that subtree. -/
def walkEntry (root : Path) (pe : Path × Entry) : Option Path :=
  match pe with
  | (p, Entry.dir) => if isUnder root p then some p else none
  | _ => none

/-- The directories yielded by `os.walk(root)`: every directory entry of `fs`
in the subtree of `root`, in enumeration order. -/
def walkDirs (fs : Fs) (root : Path) : List Path :=
  fs.filterMap (walkEntry root)

/-- The contribution of one filesystem entry to the file listing of directory
`d`: the entry's path when it is a file directly inside `d`. -/
def childEntry (d : Path) (pe : Path × Entry) : Option Path :=
  match pe with
  | (p, Entry.file _) =>
    if d ++ ['/'] <+: p ∧ '/' ∉ p.drop (d.length + 1) then some p else none
  | _ => none

/-- The files directly inside directory `d` (the `filenames` of the walk tuple,
given as full paths: `os.path.join(dirpath, filename)` recovers exactly these
paths, and `filename = p.drop (d.length + 1)`). -/
def childFiles (fs : Fs) (d : Path) : List Path :=
  fs.filterMap (childEntry d)

/-- The replica-side target `os.path.join(replica_path, filename)` of a source
file `sf` listed in directory `d`: `filename` is `sf` minus `dirpath + "/"`. -/
def targetOf (d rp sf : Path) : Path := rp ++ '/' :: sf.drop (d.length + 1)

/-- Lines 86–91, one file of the inner loop: `source_file = join(dirpath,
filename)`, `replica_file = join(replica_path, filename)`; copy (and log)
when the replica file is missing or the digests differ; the `or` is
short-circuiting, so the digests are computed only when the replica file
exists, source first.  An uncaught exception freezes the run. -/
def copyStep (fp : List Nat → List Nat) (d rp : Path) (st : St) (sf : Path) : St :=
  if st.err.isSome then st else
  if existsPath st.fs (targetOf d rp sf) then
    match md5E fp st.fs sf with
    | Except.error e => { st with err := some e }
    | Except.ok h1 =>
      match md5E fp st.fs (targetOf d rp sf) with
      | Except.error e => { st with err := some e }
      | Except.ok h2 =>
        if h1 = h2 then st
        else
          match copy2E st.fs sf (targetOf d rp sf) with
          | Except.error e => { st with err := some e }
          | Except.ok fs2 => ⟨fs2, st.evs ++ [Event.copied sf (targetOf d rp sf)], none⟩
  else
    match copy2E st.fs sf (targetOf d rp sf) with
    | Except.error e => { st with err := some e }
    | Except.ok fs2 => ⟨fs2, st.evs ++ [Event.copied sf (targetOf d rp sf)], none⟩

/-- Lines 81–84: compute the mirrored path by
`dirpath.replace(source, replica, 1)`; if it does not exist, create it (with
any missing ancestors) and log the creation. -/
def mkdirStep (src rep : Path) (st : St) (d : Path) : St :=
  if st.err.isSome then st else
  if existsPath st.fs (replaceFirst d src rep) then st
  else
    match makedirsE st.fs (replaceFirst d src rep) with
    | Except.error e => { st with err := some e }
    | Except.ok fs2 => ⟨fs2, st.evs ++ [Event.created (replaceFirst d src rep)], none⟩

/-- Lines 80–91, one directory of the source walk: ensure the mirrored
directory exists, then process the directory's files.  `fs0` is the
filesystem the walk enumerated. -/
def dirStep (fp : List Nat → List Nat) (src rep : Path) (fs0 : Fs) (st : St) (d : Path) : St :=
  (childFiles fs0 d).foldl (copyStep fp d (replaceFirst d src rep)) (mkdirStep src rep st d)

/-- Lines 93–99, one replica file of the prune walk: compute the inversely
mirrored source path by `replica_file.replace(replica, source, 1)` and remove
the replica file (logging it) when that source path does not exist. -/
def pruneStep (src rep : Path) (st : St) (rf : Path) : St :=
  if st.err.isSome then st else
  if existsPath st.fs (replaceFirst rf rep src) then st
  else
    match removeE st.fs rf with
    | Except.error e => { st with err := some e }
    | Except.ok fs2 => ⟨fs2, st.evs ++ [Event.removed rf], none⟩

/-- One directory of the prune walk: process each of its files.  `fsA` is the
filesystem snapshot the prune walk enumerated. -/
def pruneDir (src rep : Path) (fsA : Fs) (st : St) (d : Path) : St :=
  (childFiles fsA d).foldl (pruneStep src rep) st

/-- Phase A of `sync_folders` (lines 80–91): walk the source tree and
propagate directories and files into the replica. -/
def syncPhaseA (fp : List Nat → List Nat) (fs0 : Fs) (src rep : Path) : St :=
  (walkDirs fs0 src).foldl (dirStep fp src rep fs0) ⟨fs0, [], none⟩

/-- `sync_folders(source, replica, logger)` (lines 69–99) on a filesystem
state: phase A propagates source → replica, phase B prunes replica files with
no source counterpart.  `fp` models the external MD5 digest, the returned
state carries the final filesystem, the ordered `logger.info` events, and the
uncaught exception if one was raised. -/
def sync_folders (fp : List Nat → List Nat) (fs0 : Fs) (src rep : Path) : St :=
  (walkDirs (syncPhaseA fp fs0 src rep).fs rep).foldl
    (pruneDir src rep (syncPhaseA fp fs0 src rep).fs) (syncPhaseA fp fs0 src rep)

/-- Split a path at its last `'/'`: `lastSplit p = some (d, b)` iff
`p = d ++ '/' :: b` with no `'/'` in `b`; `d` is the parent directory and `b`
the basename. -/
def lastSplit (p : Path) : Option (Path × Path) :=
  match p with
  | [] => none
  | c :: rest =>
    match lastSplit rest with
    | some (d, b) => some (c :: d, b)
    | none => if c = '/' then some ([], rest) else none

/-! ### Concrete paths and filesystems used to instantiate the theorems -/

/-- Identity digest: a convenient instantiation of the digest parameter. -/
def wid : List Nat → List Nat := fun c => c

/-- `/s` -/
def wS : Path := ['/', 's']

/-- `/r` -/
def wR : Path := ['/', 'r']

/-- `/s/a` -/
def wSA : Path := ['/', 's', '/', 'a']

/-- `/s/b` -/
def wSB : Path := ['/', 's', '/', 'b']

/-- `/s/d` -/
def wSD : Path := ['/', 's', '/', 'd']

/-- `/r/a` -/
def wRA : Path := ['/', 'r', '/', 'a']

/-- `/r/b` -/
def wRB : Path := ['/', 'r', '/', 'b']

/-- `/r/d` -/
def wRD : Path := ['/', 'r', '/', 'd']

/-- Source `/s` with one file `/s/a`, replica `/r` empty. -/
def wFs1 : Fs := [(wS, Entry.dir), (wSA, Entry.file [1]), (wR, Entry.dir)]

/-- Empty source `/s`; replica `/r` contains a directory `/r/d` with no
source counterpart. -/
def cFs2 : Fs := [(wS, Entry.dir), (wR, Entry.dir), (wRD, Entry.dir)]

/-- Empty source `/s`; replica `/r` contains a file `/r/a` with no source
counterpart. -/
def wFs2 : Fs := [(wS, Entry.dir), (wR, Entry.dir), (wRA, Entry.file [2])]

/-- Source files `/s/a`, `/s/b`; the replica holds a directory at `/r/a`,
the mirrored path of the file `/s/a` (a type mismatch that makes
`calculate_md5('/r/a')` raise `IsADirectoryError`). -/
def fs3 (c1 c2 : List Nat) : Fs :=
  [(wS, Entry.dir), (wSA, Entry.file c1), (wSB, Entry.file c2),
   (wR, Entry.dir), (wRA, Entry.dir)]

/-- The concrete instance of `fs3`. -/
def cFs3 : Fs := fs3 [1] [2]

/-- Source file `/s/a` with content `[1]`; replica already holds `/r/a` with
stale content `[2]`. -/
def wFs6 : Fs :=
  [(wS, Entry.dir), (wSA, Entry.file [1]), (wR, Entry.dir), (wRA, Entry.file [2])]

/-- A mid-run state over `wFs6` with no pending exception. -/
def wSt6 : St := ⟨wFs6, [], none⟩

/-! ### Association-list filesystem lemmas -/

theorem getEntry_setEntry_self (fs : Fs) (p : Path) (e : Entry) :
    getEntry (setEntry fs p e) p = some e := by
  induction fs with
  | nil => simp [setEntry, getEntry]
  | cons pe rest ih =>
    obtain ⟨q, e0⟩ := pe
    by_cases h : q = p <;> simp [setEntry, getEntry, h, ih]

theorem getEntry_setEntry_ne (fs : Fs) (p q : Path) (e : Entry) (h : q ≠ p) :
    getEntry (setEntry fs p e) q = getEntry fs q := by
  have hpq : p ≠ q := Ne.symm h
  induction fs with
  | nil => simp [setEntry, getEntry, hpq]
  | cons pe rest ih =>
    obtain ⟨r, e0⟩ := pe
    by_cases hr : r = p
    · subst hr
      simp [setEntry, getEntry, hpq]
    · simp only [setEntry, if_neg hr, getEntry]
      by_cases hq : r = q <;> simp [hq, ih]

theorem getEntry_removeEntry_self (fs : Fs) (p : Path) :
    getEntry (removeEntry fs p) p = none := by
  induction fs with
  | nil => simp [removeEntry, getEntry]
  | cons pe rest ih =>
    obtain ⟨q, e0⟩ := pe
    by_cases h : q = p <;> simp [removeEntry, getEntry, h, ih]

theorem getEntry_removeEntry_ne (fs : Fs) (p q : Path) (h : q ≠ p) :
    getEntry (removeEntry fs p) q = getEntry fs q := by
  have hpq : p ≠ q := Ne.symm h
  induction fs with
  | nil => simp [removeEntry]
  | cons pe rest ih =>
    obtain ⟨r, e0⟩ := pe
    by_cases hr : r = p
    · subst hr
      simp [removeEntry, getEntry, hpq, ih]
    · simp only [removeEntry, if_neg hr, getEntry]
      by_cases hq : r = q <;> simp [hq, ih]

theorem getEntry_mem (fs : Fs) (p : Path) (e : Entry) (h : getEntry fs p = some e) :
    (p, e) ∈ fs := by
  induction fs with
  | nil => simp [getEntry] at h
  | cons pe rest ih =>
    obtain ⟨q, e0⟩ := pe
    by_cases hq : q = p
    · subst hq
      simp [getEntry] at h
      simp [h]
    · simp only [getEntry, if_neg hq] at h
      exact List.mem_cons_of_mem _ (ih h)

theorem mem_getEntry_of_nodup (fs : Fs) (p : Path) (e : Entry)
    (hnd : (fs.map Prod.fst).Nodup) (h : (p, e) ∈ fs) : getEntry fs p = some e := by
  induction fs with
  | nil => simp at h
  | cons pe rest ih =>
    obtain ⟨q, e0⟩ := pe
    simp only [List.map_cons, List.nodup_cons] at hnd
    rcases List.mem_cons.mp h with h1 | h1
    · cases h1
      simp [getEntry]
    · have hqp : q ≠ p := by
        intro hqp
        subst hqp
        exact hnd.1 (List.mem_map.mpr ⟨(q, e), h1, rfl⟩)
      simp [getEntry, hqp, ih hnd.2 h1]

/-! ### Path-prefix utilities -/

theorem prefix_append_drop (src p : Path) (h : src <+: p) :
    src ++ p.drop src.length = p := by
  obtain ⟨t, rfl⟩ := h
  rw [List.drop_left]

theorem not_under_both (src rep q : Path) (hd1 : ¬ src <+: rep) (hd2 : ¬ rep <+: src)
    (h1 : src <+: q) (h2 : rep <+: q) : False := by
  rcases List.prefix_or_prefix_of_prefix h1 h2 with h | h
  · exact hd1 h
  · exact hd2 h

theorem not_src_prefix_of_rep (src rep q : Path) (hd1 : ¬ src <+: rep)
    (h1 : src <+: q) (h2 : q <+: rep) : False := hd1 (h1.trans h2)

theorem isUnder_pre (root p : Path) (h : isUnder root p) : root <+: p := by
  rcases h with h | h
  · exact h ▸ List.prefix_refl root
  · exact (List.prefix_append root ['/']).trans h

theorem replaceFirst_of_pre (s old new : Path) (h : old <+: s) :
    replaceFirst s old new = new ++ s.drop old.length := by
  cases s with
  | nil =>
    have : old = [] := List.prefix_nil.mp h
    subst this
    simp [replaceFirst]
  | cons c rest => simp [replaceFirst, h]

theorem mirrorPath_eq_replaceFirst (src rep p : Path) (h : src <+: p) :
    replaceFirst p src rep = mirrorPath src rep p :=
  replaceFirst_of_pre p src rep h

theorem mirrorPath_pre (src rep p : Path) : rep <+: mirrorPath src rep p :=
  List.prefix_append rep _

theorem mirrorPath_join (src rep d b : Path) (h : src <+: d) :
    mirrorPath src rep (d ++ '/' :: b) = mirrorPath src rep d ++ '/' :: b := by
  unfold mirrorPath
  rw [List.drop_append_of_le_length h.length_le, List.append_assoc]

theorem mirrorPath_inj (src rep p q : Path) (hp : src <+: p) (hq : src <+: q)
    (h : mirrorPath src rep p = mirrorPath src rep q) : p = q := by
  unfold mirrorPath at h
  have h2 := List.append_cancel_left h
  rw [← prefix_append_drop src p hp, ← prefix_append_drop src q hq, h2]

theorem mirrorPath_inverse (src rep p : Path) (h : src <+: p) :
    replaceFirst (mirrorPath src rep p) rep src = p := by
  rw [replaceFirst_of_pre _ _ _ (mirrorPath_pre src rep p)]
  unfold mirrorPath
  rw [List.drop_left, prefix_append_drop src p h]

/-! ### Walk and listing characterisations -/

theorem walkDirs_mem (fs : Fs) (root p : Path) :
    p ∈ walkDirs fs root ↔ (p, Entry.dir) ∈ fs ∧ isUnder root p := by
  unfold walkDirs
  rw [List.mem_filterMap]
  constructor
  · rintro ⟨⟨q, e⟩, hmem, hf⟩
    unfold walkEntry at hf
    cases e with
    | file c => simp at hf
    | dir =>
      by_cases h : isUnder root q
      · simp only [if_pos h, Option.some.injEq] at hf
        subst hf
        exact ⟨hmem, h⟩
      · simp [h] at hf
  · rintro ⟨hmem, h⟩
    exact ⟨(p, Entry.dir), hmem, by simp [walkEntry, h]⟩

theorem childFiles_mem (fs : Fs) (d p : Path) :
    p ∈ childFiles fs d ↔
      (∃ c, (p, Entry.file c) ∈ fs) ∧ d ++ ['/'] <+: p ∧ '/' ∉ p.drop (d.length + 1) := by
  unfold childFiles
  rw [List.mem_filterMap]
  constructor
  · rintro ⟨⟨q, e⟩, hmem, hf⟩
    unfold childEntry at hf
    cases e with
    | dir => simp at hf
    | file c =>
      by_cases h : d ++ ['/'] <+: q ∧ '/' ∉ q.drop (d.length + 1)
      · simp only [if_pos h, Option.some.injEq] at hf
        subst hf
        exact ⟨⟨c, hmem⟩, h⟩
      · simp [h] at hf
  · rintro ⟨⟨c, hmem⟩, h⟩
    exact ⟨(p, Entry.file c), hmem, by simp [childEntry, h]⟩

theorem walkDirs_sublist (fs : Fs) (root : Path) :
    List.Sublist (walkDirs fs root) (fs.map Prod.fst) := by
  induction fs with
  | nil => simp [walkDirs]
  | cons pe rest ih =>
    obtain ⟨q, e⟩ := pe
    unfold walkDirs at ih ⊢
    cases e with
    | file c => exact List.Sublist.cons q ih
    | dir =>
      by_cases h : isUnder root q
      · simpa [walkEntry, h] using List.Sublist.cons₂ q ih
      · simpa [walkEntry, h] using List.Sublist.cons q ih

theorem childFiles_sublist (fs : Fs) (d : Path) :
    List.Sublist (childFiles fs d) (fs.map Prod.fst) := by
  induction fs with
  | nil => simp [childFiles]
  | cons pe rest ih =>
    obtain ⟨q, e⟩ := pe
    unfold childFiles at ih ⊢
    cases e with
    | dir => exact List.Sublist.cons q ih
    | file c =>
      by_cases h : d ++ ['/'] <+: q ∧ '/' ∉ q.drop (d.length + 1)
      · simpa [childEntry, h] using List.Sublist.cons₂ q ih
      · simpa [childEntry, h] using List.Sublist.cons q ih

theorem childFiles_under (fs : Fs) (d p root : Path) (hd : isUnder root d)
    (hp : p ∈ childFiles fs d) : root ++ ['/'] <+: p := by
  obtain ⟨-, hpre, -⟩ := (childFiles_mem fs d p).mp hp
  rcases hd with h | h
  · exact h ▸ hpre
  · exact h.trans ((List.prefix_append d ['/']).trans hpre)

theorem childFiles_entry (fs : Fs) (d p : Path)
    (hnd : (fs.map Prod.fst).Nodup) (hp : p ∈ childFiles fs d) :
    ∃ c, getEntry fs p = some (Entry.file c) := by
  obtain ⟨⟨c, hmem⟩, -, -⟩ := (childFiles_mem fs d p).mp hp
  exact ⟨c, mem_getEntry_of_nodup fs p _ hnd hmem⟩

theorem childFiles_split (fs : Fs) (d p : Path) (hp : p ∈ childFiles fs d) :
    p = d ++ '/' :: p.drop (d.length + 1) := by
  obtain ⟨-, hpre, -⟩ := (childFiles_mem fs d p).mp hp
  have := prefix_append_drop _ _ hpre
  simpa using this.symm

/-! ### Last-slash split lemmas -/

theorem lastSplit_none_iff (p : Path) : lastSplit p = none ↔ '/' ∉ p := by
  induction p with
  | nil => simp [lastSplit]
  | cons c rest ih =>
    simp only [lastSplit]
    cases h : lastSplit rest with
    | some db =>
      obtain ⟨d, b⟩ := db
      have hmem : '/' ∈ rest := by
        by_contra hn
        exact Option.noConfusion ((ih.mpr hn).symm.trans h)
      simp [hmem]
    | none =>
      by_cases hc : c = '/'
      · subst hc
        simp
      · have hrest : '/' ∉ rest := ih.mp h
        simp [hc, hrest, Ne.symm hc]

theorem lastSplit_sound (p : Path) : ∀ d b, lastSplit p = some (d, b) →
    p = d ++ '/' :: b ∧ '/' ∉ b := by
  induction p with
  | nil => intro d b h; simp [lastSplit] at h
  | cons c rest ih =>
    intro d b h
    simp only [lastSplit] at h
    cases h' : lastSplit rest with
    | some db =>
      obtain ⟨d', b'⟩ := db
      rw [h'] at h
      simp only [Option.some.injEq, Prod.mk.injEq] at h
      obtain ⟨hd1, hb1⟩ := h
      obtain ⟨hrest, hnb⟩ := ih d' b' h'
      subst hd1
      subst hb1
      exact ⟨by rw [hrest, List.cons_append], hnb⟩
    | none =>
      rw [h'] at h
      by_cases hc : c = '/'
      · subst hc
        rw [if_pos rfl] at h
        injection h with h2
        injection h2 with hd1 hb1
        subst hd1
        subst hb1
        exact ⟨rfl, (lastSplit_none_iff rest).mp h'⟩
      · rw [if_neg hc] at h
        exact Option.noConfusion h

theorem lastSplit_complete (d b : Path) (h : '/' ∉ b) :
    lastSplit (d ++ '/' :: b) = some (d, b) := by
  induction d with
  | nil =>
    rw [List.nil_append]
    simp only [lastSplit]
    rw [(lastSplit_none_iff b).mpr h]
    simp
  | cons c d' ih =>
    rw [List.cons_append]
    simp only [lastSplit]
    rw [ih]

/-! ### Chunked-read lemmas -/

theorem readChunksF_foldl (fuel : Nat) :
    ∀ (l : List Nat) (acc : List Nat), l.length ≤ fuel →
      (readChunksF fuel l).foldl (fun a c => a ++ c) acc = acc ++ l := by
  induction fuel with
  | zero =>
    intro l acc hl
    have : l = [] := List.length_eq_zero.mp (Nat.le_zero.mp hl)
    subst this
    simp [readChunksF]
  | succ fuel ih =>
    intro l acc hl
    cases l with
    | nil => simp [readChunksF]
    | cons x xs =>
      have hlen : ((x :: xs).drop 4096).length ≤ fuel := by
        rw [List.length_drop]
        simp only [List.length_cons] at hl ⊢
        omega
      simp only [readChunksF, List.foldl_cons]
      rw [ih _ _ hlen, List.append_assoc, List.take_append_drop]

theorem hashUpdates_readChunks (content : List Nat) :
    hashUpdates (readChunks content) = content := by
  unfold hashUpdates readChunks
  rw [readChunksF_foldl content.length content [] (Nat.le_refl _)]
  simp

theorem readChunksF_bounded (fuel : Nat) :
    ∀ (l : List Nat), l.length ≤ fuel →
      ∀ ch ∈ readChunksF fuel l, ch.length ≤ 4096 := by
  induction fuel with
  | zero =>
    intro l hl ch hch
    have : l = [] := List.length_eq_zero.mp (Nat.le_zero.mp hl)
    subst this
    simp [readChunksF] at hch
  | succ fuel ih =>
    intro l hl ch hch
    cases l with
    | nil => simp [readChunksF] at hch
    | cons x xs =>
      simp only [readChunksF, List.mem_cons] at hch
      rcases hch with h | h
      · subst h
        rw [List.length_take]
        omega
      · have hlen : ((x :: xs).drop 4096).length ≤ fuel := by
          rw [List.length_drop]
          simp only [List.length_cons] at hl ⊢
          omega
        exact ih _ hlen ch h

/-! ### Fold combinators -/

theorem foldl_pres {α β : Type} {P : β → Prop} (f : β → α → β) :
    ∀ (l : List α) (b : β), P b → (∀ x, x ∈ l → ∀ s, P s → P (f s x)) →
      P (l.foldl f b) := by
  intro l
  induction l with
  | nil => intro b hb _; exact hb
  | cons y ys ih =>
    intro b hb hstep
    exact ih (f b y) (hstep y (List.mem_cons_self y ys) b hb)
      (fun x hx s hs => hstep x (List.mem_cons_of_mem y hx) s hs)

/-! ### Inversion lemmas for the fallible operations -/

theorem md5E_ok (fp : List Nat → List Nat) (fs : Fs) (p : Path) (h1 : List Nat)
    (h : md5E fp fs p = Except.ok h1) :
    ∃ c, getEntry fs p = some (Entry.file c) ∧ h1 = calculate_md5 fp c := by
  unfold md5E at h
  cases he : getEntry fs p with
  | none => rw [he] at h; simp at h
  | some e =>
    cases e with
    | dir => rw [he] at h; simp at h
    | file c =>
      rw [he] at h
      simp only [Except.ok.injEq] at h
      exact ⟨c, rfl, h.symm⟩

theorem copy2E_ok (fs fs' : Fs) (s d : Path) (h : copy2E fs s d = Except.ok fs') :
    ∃ c, getEntry fs s = some (Entry.file c) ∧ getEntry fs d ≠ some Entry.dir ∧
      fs' = setEntry fs d (Entry.file c) := by
  unfold copy2E at h
  cases hs : getEntry fs s with
  | none => rw [hs] at h; simp at h
  | some e =>
    cases e with
    | dir => rw [hs] at h; simp at h
    | file c =>
      rw [hs] at h
      cases hd : getEntry fs d with
      | none =>
        rw [hd] at h
        simp only [Except.ok.injEq] at h
        exact ⟨c, rfl, by simp [hd], h.symm⟩
      | some e' =>
        cases e' with
        | dir => rw [hd] at h; simp at h
        | file c' =>
          rw [hd] at h
          simp only [Except.ok.injEq] at h
          exact ⟨c, rfl, by simp [hd], h.symm⟩

theorem removeE_ok (fs fs' : Fs) (p : Path) (h : removeE fs p = Except.ok fs') :
    ∃ c, getEntry fs p = some (Entry.file c) ∧ fs' = removeEntry fs p := by
  unfold removeE at h
  cases he : getEntry fs p with
  | none => rw [he] at h; simp at h
  | some e =>
    cases e with
    | dir => rw [he] at h; simp at h
    | file c =>
      rw [he] at h
      simp only [Except.ok.injEq] at h
      exact ⟨c, rfl, h.symm⟩

theorem mkdirsGo_presP (P : Fs → Prop) :
    ∀ (L : List Path) (fs fs' : Fs),
      (∀ k, k ∈ L → ∀ g, getEntry g k = none → P g → P (setEntry g k Entry.dir)) →
      P fs → mkdirsGo fs L = Except.ok fs' → P fs' := by
  intro L
  induction L with
  | nil =>
    intro fs fs' _ hP h
    unfold mkdirsGo at h
    simp only [Except.ok.injEq] at h
    exact h ▸ hP
  | cons q rest ih =>
    intro fs fs' hset hP h
    unfold mkdirsGo at h
    cases he : getEntry fs q with
    | some e =>
      cases e with
      | dir =>
        rw [he] at h
        exact ih fs fs' (fun k hk => hset k (List.mem_cons_of_mem q hk)) hP h
      | file c => rw [he] at h; simp at h
    | none =>
      rw [he] at h
      exact ih _ fs' (fun k hk => hset k (List.mem_cons_of_mem q hk))
        (hset q (List.mem_cons_self q rest) fs he hP) h

theorem mkdirsGo_pres_some :
    ∀ (L : List Path) (fs fs' : Fs) (q : Path) (e : Entry),
      getEntry fs q = some e → mkdirsGo fs L = Except.ok fs' →
      getEntry fs' q = some e := by
  intro L fs fs' q e hq h
  exact mkdirsGo_presP (fun g => getEntry g q = some e) L fs fs'
    (fun k _ g hk hg => by
      have hkq : k ≠ q := fun hkq => by
        rw [hkq] at hk
        rw [hk] at hg
        exact Option.noConfusion hg
      show getEntry (setEntry g k Entry.dir) q = some e
      rw [getEntry_setEntry_ne g k q Entry.dir (Ne.symm hkq)]
      exact hg) hq h

theorem ancestorsOf_pre (p q : Path) (h : q ∈ ancestorsOf p) : q <+: p := by
  unfold ancestorsOf at h
  rw [List.mem_filterMap] at h
  obtain ⟨i, -, hf⟩ := h
  split at hf
  · simp only [Option.some.injEq] at hf
    exact hf ▸ List.take_prefix i p
  · exact absurd hf (by simp)

theorem makedirs_key_comparable (rep rp q : Path) (hrp : rep <+: rp)
    (hq : q ∈ ancestorsOf rp ++ [rp]) : rep <+: q ∨ q <+: rep := by
  rcases List.mem_append.mp hq with h | h
  · exact List.prefix_or_prefix_of_prefix hrp (ancestorsOf_pre rp q h)
  · simp only [List.mem_singleton] at h
    exact Or.inl (h ▸ hrp)

/-! ### Frozen-state lemmas: after an uncaught exception nothing executes -/

theorem copyStep_frozen (fp : List Nat → List Nat) (d rp : Path) (st : St) (sf : Path)
    (h : st.err.isSome = true) : copyStep fp d rp st sf = st := by
  unfold copyStep
  rw [if_pos h]

theorem mkdirStep_frozen (src rep : Path) (st : St) (d : Path)
    (h : st.err.isSome = true) : mkdirStep src rep st d = st := by
  unfold mkdirStep
  rw [if_pos h]

theorem pruneStep_frozen (src rep : Path) (st : St) (rf : Path)
    (h : st.err.isSome = true) : pruneStep src rep st rf = st := by
  unfold pruneStep
  rw [if_pos h]

theorem dirStep_frozen (fp : List Nat → List Nat) (src rep : Path) (fs0 : Fs) (st : St)
    (d : Path) (h : st.err.isSome = true) : dirStep fp src rep fs0 st d = st := by
  unfold dirStep
  rw [mkdirStep_frozen src rep st d h]
  exact @foldl_pres Path St (fun s => s = st) _ _ _ rfl
    (fun sf _ s hs => by rw [hs, copyStep_frozen fp d _ st sf h])

theorem pruneDir_frozen (src rep : Path) (fsA : Fs) (st : St) (d : Path)
    (h : st.err.isSome = true) : pruneDir src rep fsA st d = st := by
  unfold pruneDir
  exact @foldl_pres Path St (fun s => s = st) _ _ _ rfl
    (fun rf _ s hs => by rw [hs, pruneStep_frozen src rep st rf h])

/-! ### Filesystem-preservation master lemmas -/

theorem copyStep_fsP (P : Fs → Prop) (fp : List Nat → List Nat) (d rp : Path) (st : St)
    (sf : Path)
    (hset : ∀ g c, getEntry g (targetOf d rp sf) ≠ some Entry.dir → P g →
      P (setEntry g (targetOf d rp sf) (Entry.file c)))
    (hP : P st.fs) : P (copyStep fp d rp st sf).fs := by
  unfold copyStep
  split
  · exact hP
  split
  · split
    · exact hP
    · split
      · exact hP
      · split
        · exact hP
        · split
          · exact hP
          · rename_i fs2 hcopy
            obtain ⟨c, -, hnd, h2⟩ := copy2E_ok st.fs fs2 sf (targetOf d rp sf) hcopy
            show P fs2
            rw [h2]
            exact hset st.fs c hnd hP
  · split
    · exact hP
    · rename_i fs2 hcopy
      obtain ⟨c, -, hnd, h2⟩ := copy2E_ok st.fs fs2 sf (targetOf d rp sf) hcopy
      show P fs2
      rw [h2]
      exact hset st.fs c hnd hP

theorem mkdirStep_fsP (P : Fs → Prop) (src rep : Path) (st : St) (d : Path)
    (hset : ∀ k, k ∈ ancestorsOf (replaceFirst d src rep) ++ [replaceFirst d src rep] →
      ∀ g, getEntry g k = none → P g → P (setEntry g k Entry.dir))
    (hP : P st.fs) : P (mkdirStep src rep st d).fs := by
  unfold mkdirStep
  split
  · exact hP
  split
  · exact hP
  split
  · exact hP
  · rename_i fs2 hmk
    unfold makedirsE at hmk
    exact mkdirsGo_presP P _ st.fs fs2 hset hP hmk

theorem pruneStep_fsP (P : Fs → Prop) (src rep : Path) (st : St) (rf : Path)
    (hrem : ∀ g c, getEntry g rf = some (Entry.file c) → P g → P (removeEntry g rf))
    (hP : P st.fs) : P (pruneStep src rep st rf).fs := by
  unfold pruneStep
  split
  · exact hP
  split
  · exact hP
  split
  · exact hP
  · rename_i fs2 hrm
    obtain ⟨c, hc, h2⟩ := removeE_ok st.fs fs2 rf hrm
    show P fs2
    rw [h2]
    exact hrem st.fs c hc hP

theorem dirStep_fsP (P : Fs → Prop) (fp : List Nat → List Nat) (src rep : Path) (fs0 : Fs)
    (st : St) (d : Path)
    (hset : ∀ k, k ∈ ancestorsOf (replaceFirst d src rep) ++ [replaceFirst d src rep] →
      ∀ g, getEntry g k = none → P g → P (setEntry g k Entry.dir))
    (hcopy : ∀ g c sf, sf ∈ childFiles fs0 d →
      getEntry g (targetOf d (replaceFirst d src rep) sf) ≠ some Entry.dir → P g →
      P (setEntry g (targetOf d (replaceFirst d src rep) sf) (Entry.file c)))
    (hP : P st.fs) : P (dirStep fp src rep fs0 st d).fs := by
  unfold dirStep
  exact @foldl_pres Path St (fun s => P s.fs) _ _ _
    (mkdirStep_fsP P src rep st d hset hP)
    (fun sf hsf s hs =>
      copyStep_fsP P fp d _ s sf (fun g c hnd hg => hcopy g c sf hsf hnd hg) hs)

theorem pruneDir_fsP (P : Fs → Prop) (src rep : Path) (fsA : Fs) (st : St) (d : Path)
    (hrem : ∀ g c rf, rf ∈ childFiles fsA d → getEntry g rf = some (Entry.file c) →
      P g → P (removeEntry g rf))
    (hP : P st.fs) : P (pruneDir src rep fsA st d).fs := by
  unfold pruneDir
  exact @foldl_pres Path St (fun s => P s.fs) _ _ _ hP
    (fun rf hrf s hs =>
      pruneStep_fsP P src rep s rf (fun g c hc hg => hrem g c rf hrf hc hg) hs)

/-! ### Run plumbing -/

theorem sync_pres (fp : List Nat → List Nat) (fs0 : Fs) (src rep : Path) (P : St → Prop)
    (hA : ∀ st d, d ∈ walkDirs fs0 src → P st → P (dirStep fp src rep fs0 st d))
    (hB : ∀ fsA st d, d ∈ walkDirs fsA rep → P st → P (pruneDir src rep fsA st d))
    (h0 : P ⟨fs0, [], none⟩) : P (sync_folders fp fs0 src rep) := by
  unfold sync_folders
  have hPA : P (syncPhaseA fp fs0 src rep) := by
    unfold syncPhaseA
    exact foldl_pres _ _ _ h0 (fun d hd st hst => hA st d hd hst)
  exact foldl_pres _ _ _ hPA (fun d hd st hst => hB _ st d hd hst)

/-! ### Small auxiliary lemmas -/

theorem existsPath_setEntry (g : Fs) (k q : Path) (e : Entry) (h : existsPath g q) :
    existsPath (setEntry g k e) q := by
  unfold existsPath at h ⊢
  by_cases hk : q = k
  · subst hk
    rw [getEntry_setEntry_self]
    simp
  · rw [getEntry_setEntry_ne g k q e hk]
    exact h

theorem setEntry_nil (p : Path) (e : Entry) : setEntry [] p e = [(p, e)] := rfl

theorem setEntry_cons_self (q : Path) (e0 : Entry) (rest : Fs) (e : Entry) :
    setEntry ((q, e0) :: rest) q e = (q, e) :: rest := by
  unfold setEntry
  rw [if_pos rfl]

theorem setEntry_cons_ne (q : Path) (e0 : Entry) (rest : Fs) (p : Path) (e : Entry)
    (h : q ≠ p) : setEntry ((q, e0) :: rest) p e = (q, e0) :: setEntry rest p e := by
  conv_lhs => unfold setEntry
  rw [if_neg h]

theorem setEntry_keys_mem (fs : Fs) (p r : Path) (e : Entry) :
    r ∈ (setEntry fs p e).map Prod.fst → r ∈ fs.map Prod.fst ∨ r = p := by
  induction fs with
  | nil =>
    intro h
    rw [setEntry_nil] at h
    simp at h
    exact Or.inr h
  | cons pe rest ih =>
    obtain ⟨q, e0⟩ := pe
    intro h
    by_cases hq : q = p
    · subst hq
      rw [setEntry_cons_self] at h
      simp only [List.map_cons, List.mem_cons] at h
      rcases h with h | h
      · exact Or.inr h
      · exact Or.inl (by rw [List.map_cons]; exact List.mem_cons_of_mem q h)
    · rw [setEntry_cons_ne q e0 rest p e hq] at h
      simp only [List.map_cons, List.mem_cons] at h
      rcases h with h | h
      · exact Or.inl (by rw [List.map_cons, h]; exact List.mem_cons_self q _)
      · rcases ih h with h2 | h2
        · exact Or.inl (List.mem_cons_of_mem q h2)
        · exact Or.inr h2

theorem setEntry_nodup (fs : Fs) (p : Path) (e : Entry)
    (hnd : (fs.map Prod.fst).Nodup) : ((setEntry fs p e).map Prod.fst).Nodup := by
  induction fs with
  | nil =>
    rw [setEntry_nil]
    simp
  | cons pe rest ih =>
    obtain ⟨q, e0⟩ := pe
    simp only [List.map_cons, List.nodup_cons] at hnd
    by_cases hq : q = p
    · subst hq
      rw [setEntry_cons_self]
      simp only [List.map_cons, List.nodup_cons]
      exact hnd
    · rw [setEntry_cons_ne q e0 rest p e hq]
      simp only [List.map_cons, List.nodup_cons]
      refine ⟨fun hmem => ?_, ih hnd.2⟩
      rcases setEntry_keys_mem rest p q e hmem with h | h
      · exact hnd.1 h
      · exact hq h

theorem removeEntry_sublist (fs : Fs) (p : Path) :
    List.Sublist (removeEntry fs p) fs := by
  induction fs with
  | nil => simp [removeEntry]
  | cons pe rest ih =>
    obtain ⟨q, e⟩ := pe
    by_cases hq : q = p
    · simpa [removeEntry, hq] using List.Sublist.cons (q, e) ih
    · simpa [removeEntry, hq] using List.Sublist.cons₂ (q, e) ih

theorem removeEntry_nodup (fs : Fs) (p : Path) (hnd : (fs.map Prod.fst).Nodup) :
    ((removeEntry fs p).map Prod.fst).Nodup :=
  ((removeEntry_sublist fs p).map Prod.fst).nodup hnd

theorem rep_prefix_replaceFirst (src rep d : Path) (hd : isUnder src d) :
    rep <+: replaceFirst d src rep := by
  rw [mirrorPath_eq_replaceFirst src rep d (isUnder_pre src d hd)]
  exact mirrorPath_pre src rep d

theorem rep_prefix_targetOf (rep d rp sf : Path) (hrp : rep <+: rp) :
    rep <+: targetOf d rp sf :=
  hrp.trans (List.prefix_append rp _)

/-! ### Branch characterisations of the per-file and per-directory steps -/

theorem copyStep_missing (fp : List Nat → List Nat) (d rp : Path) (st : St) (sf : Path)
    (c : List Nat) (hok : st.err = none)
    (hmiss : ¬ existsPath st.fs (targetOf d rp sf))
    (hsf : getEntry st.fs sf = some (Entry.file c)) :
    copyStep fp d rp st sf =
      ⟨setEntry st.fs (targetOf d rp sf) (Entry.file c),
        st.evs ++ [Event.copied sf (targetOf d rp sf)], none⟩ := by
  have hdst : getEntry st.fs (targetOf d rp sf) = none := by
    unfold existsPath at hmiss
    exact not_not.mp hmiss
  have hcopy : copy2E st.fs sf (targetOf d rp sf) =
      Except.ok (setEntry st.fs (targetOf d rp sf) (Entry.file c)) := by
    unfold copy2E
    rw [hsf, hdst]
  simp [copyStep, hok, hmiss, hcopy]

theorem copyStep_skip (fp : List Nat → List Nat) (d rp : Path) (st : St) (sf : Path)
    (c c' : List Nat) (hok : st.err = none)
    (hsf : getEntry st.fs sf = some (Entry.file c))
    (hrf : getEntry st.fs (targetOf d rp sf) = some (Entry.file c'))
    (heq : calculate_md5 fp c = calculate_md5 fp c') :
    copyStep fp d rp st sf = st := by
  have h1 : md5E fp st.fs sf = Except.ok (calculate_md5 fp c) := by
    unfold md5E; rw [hsf]
  have h2 : md5E fp st.fs (targetOf d rp sf) = Except.ok (calculate_md5 fp c') := by
    unfold md5E; rw [hrf]
  have hex : existsPath st.fs (targetOf d rp sf) := by
    unfold existsPath; rw [hrf]; simp
  simp [copyStep, hok, hex, h1, h2, heq]

theorem copyStep_diff (fp : List Nat → List Nat) (d rp : Path) (st : St) (sf : Path)
    (c c' : List Nat) (hok : st.err = none)
    (hsf : getEntry st.fs sf = some (Entry.file c))
    (hrf : getEntry st.fs (targetOf d rp sf) = some (Entry.file c'))
    (hne : calculate_md5 fp c ≠ calculate_md5 fp c') :
    copyStep fp d rp st sf =
      ⟨setEntry st.fs (targetOf d rp sf) (Entry.file c),
        st.evs ++ [Event.copied sf (targetOf d rp sf)], none⟩ := by
  have h1 : md5E fp st.fs sf = Except.ok (calculate_md5 fp c) := by
    unfold md5E; rw [hsf]
  have h2 : md5E fp st.fs (targetOf d rp sf) = Except.ok (calculate_md5 fp c') := by
    unfold md5E; rw [hrf]
  have hex : existsPath st.fs (targetOf d rp sf) := by
    unfold existsPath; rw [hrf]; simp
  have hcopy : copy2E st.fs sf (targetOf d rp sf) =
      Except.ok (setEntry st.fs (targetOf d rp sf) (Entry.file c)) := by
    unfold copy2E
    rw [hsf, hrf]
  simp [copyStep, hok, hex, h1, h2, hne, hcopy]

theorem copyStep_rf_dir (fp : List Nat → List Nat) (d rp : Path) (st : St) (sf : Path)
    (c : List Nat) (hok : st.err = none)
    (hsf : getEntry st.fs sf = some (Entry.file c))
    (hrf : getEntry st.fs (targetOf d rp sf) = some Entry.dir) :
    copyStep fp d rp st sf = { st with err := some "IsADirectoryError" } := by
  have h1 : md5E fp st.fs sf = Except.ok (calculate_md5 fp c) := by
    unfold md5E; rw [hsf]
  have h2 : md5E fp st.fs (targetOf d rp sf) = Except.error "IsADirectoryError" := by
    unfold md5E; rw [hrf]
  have hex : existsPath st.fs (targetOf d rp sf) := by
    unfold existsPath; rw [hrf]; simp
  simp [copyStep, hok, hex, h1, h2]

theorem mkdirStep_noop (src rep : Path) (st : St) (d : Path)
    (hex : existsPath st.fs (replaceFirst d src rep)) :
    mkdirStep src rep st d = st := by
  unfold mkdirStep
  by_cases h : st.err.isSome = true
  · rw [if_pos h]
  · rw [if_neg h, if_pos hex]

theorem mkdirStep_create_ok (src rep : Path) (st : St) (d : Path) (fs2 : Fs)
    (hok : st.err = none) (hmiss : ¬ existsPath st.fs (replaceFirst d src rep))
    (hmk : makedirsE st.fs (replaceFirst d src rep) = Except.ok fs2) :
    mkdirStep src rep st d =
      ⟨fs2, st.evs ++ [Event.created (replaceFirst d src rep)], none⟩ := by
  simp [mkdirStep, hok, hmiss, hmk]

theorem pruneStep_noop (src rep : Path) (st : St) (rf : Path)
    (hex : existsPath st.fs (replaceFirst rf rep src)) :
    pruneStep src rep st rf = st := by
  unfold pruneStep
  by_cases h : st.err.isSome = true
  · rw [if_pos h]
  · rw [if_neg h, if_pos hex]

theorem pruneStep_remove (src rep : Path) (st : St) (rf : Path) (c : List Nat)
    (hok : st.err = none) (hmiss : ¬ existsPath st.fs (replaceFirst rf rep src))
    (hrf : getEntry st.fs rf = some (Entry.file c)) :
    pruneStep src rep st rf =
      ⟨removeEntry st.fs rf, st.evs ++ [Event.removed rf], none⟩ := by
  have hrm : removeE st.fs rf = Except.ok (removeEntry st.fs rf) := by
    unfold removeE; rw [hrf]
  simp [pruneStep, hok, hmiss, hrm]

/-! ### Entry-preservation corollaries -/

theorem copyStep_getEntry_ne (fp : List Nat → List Nat) (d rp : Path) (st : St)
    (sf q : Path) (hne : q ≠ targetOf d rp sf) :
    getEntry (copyStep fp d rp st sf).fs q = getEntry st.fs q :=
  copyStep_fsP (fun g => getEntry g q = getEntry st.fs q) fp d rp st sf
    (fun g c _ hg => by
      show getEntry (setEntry g (targetOf d rp sf) (Entry.file c)) q = getEntry st.fs q
      rw [getEntry_setEntry_ne g _ q _ hne]
      exact hg) rfl

theorem copyStep_dir_pres (fp : List Nat → List Nat) (d rp : Path) (st : St)
    (sf q : Path) (hq : getEntry st.fs q = some Entry.dir) :
    getEntry (copyStep fp d rp st sf).fs q = some Entry.dir :=
  copyStep_fsP (fun g => getEntry g q = some Entry.dir) fp d rp st sf
    (fun g c hnd hg => by
      have hg2 : getEntry g q = some Entry.dir := hg
      have hne : q ≠ targetOf d rp sf := by
        intro h
        rw [h] at hg2
        exact hnd hg2
      show getEntry (setEntry g (targetOf d rp sf) (Entry.file c)) q = some Entry.dir
      rw [getEntry_setEntry_ne g _ q _ hne]
      exact hg) hq

theorem copyStep_exists_mono (fp : List Nat → List Nat) (d rp : Path) (st : St)
    (sf q : Path) (hq : existsPath st.fs q) :
    existsPath (copyStep fp d rp st sf).fs q :=
  copyStep_fsP (fun g => existsPath g q) fp d rp st sf
    (fun g c _ hg => existsPath_setEntry g _ q _ hg) hq

theorem mkdirStep_pres_some (src rep : Path) (st : St) (d q : Path) (e : Entry)
    (hq : getEntry st.fs q = some e) :
    getEntry (mkdirStep src rep st d).fs q = some e :=
  mkdirStep_fsP (fun g => getEntry g q = some e) src rep st d
    (fun k _ g hk hg => by
      have hg2 : getEntry g q = some e := hg
      have hne : k ≠ q := by
        intro h
        rw [h, hg2] at hk
        exact Option.noConfusion hk
      show getEntry (setEntry g k Entry.dir) q = some e
      rw [getEntry_setEntry_ne g k q _ (Ne.symm hne)]
      exact hg) hq

theorem mkdirStep_exists_mono (src rep : Path) (st : St) (d q : Path)
    (hq : existsPath st.fs q) : existsPath (mkdirStep src rep st d).fs q :=
  mkdirStep_fsP (fun g => existsPath g q) src rep st d
    (fun k _ g _ hg => existsPath_setEntry g k q _ hg) hq

theorem pruneStep_getEntry_ne (src rep : Path) (st : St) (rf q : Path) (hne : q ≠ rf) :
    getEntry (pruneStep src rep st rf).fs q = getEntry st.fs q :=
  pruneStep_fsP (fun g => getEntry g q = getEntry st.fs q) src rep st rf
    (fun g c _ hg => by
      show getEntry (removeEntry g rf) q = getEntry st.fs q
      rw [getEntry_removeEntry_ne g rf q hne]
      exact hg) rfl

theorem pruneStep_dir_pres (src rep : Path) (st : St) (rf q : Path)
    (hq : getEntry st.fs q = some Entry.dir) :
    getEntry (pruneStep src rep st rf).fs q = some Entry.dir :=
  pruneStep_fsP (fun g => getEntry g q = some Entry.dir) src rep st rf
    (fun g c hc hg => by
      have hg2 : getEntry g q = some Entry.dir := hg
      have hne : q ≠ rf := by
        intro h
        rw [h] at hg2
        rw [hg2] at hc
        exact Entry.noConfusion (Option.some.inj hc)
      show getEntry (removeEntry g rf) q = some Entry.dir
      rw [getEntry_removeEntry_ne g rf q hne]
      exact hg) hq

/-! ### Log-extension lemmas -/

theorem evs_extend_trans {a b c : St} (h1 : ∃ t, b.evs = a.evs ++ t)
    (h2 : ∃ t, c.evs = b.evs ++ t) : ∃ t, c.evs = a.evs ++ t := by
  obtain ⟨t1, h1⟩ := h1
  obtain ⟨t2, h2⟩ := h2
  exact ⟨t1 ++ t2, by rw [h2, h1, List.append_assoc]⟩

theorem evs_mem_mono {a b : St} (h : ∃ t, b.evs = a.evs ++ t) {ev : Event}
    (hev : ev ∈ a.evs) : ev ∈ b.evs := by
  obtain ⟨t, ht⟩ := h
  rw [ht]
  exact List.mem_append_left t hev

theorem copyStep_evs (fp : List Nat → List Nat) (d rp : Path) (st : St) (sf : Path) :
    ∃ t, (copyStep fp d rp st sf).evs = st.evs ++ t := by
  unfold copyStep
  repeat' split
  all_goals first
    | exact ⟨_, rfl⟩
    | exact ⟨[], by simp⟩

theorem mkdirStep_evs (src rep : Path) (st : St) (d : Path) :
    ∃ t, (mkdirStep src rep st d).evs = st.evs ++ t := by
  unfold mkdirStep
  repeat' split
  all_goals first
    | exact ⟨_, rfl⟩
    | exact ⟨[], by simp⟩

theorem pruneStep_evs (src rep : Path) (st : St) (rf : Path) :
    ∃ t, (pruneStep src rep st rf).evs = st.evs ++ t := by
  unfold pruneStep
  repeat' split
  all_goals first
    | exact ⟨_, rfl⟩
    | exact ⟨[], by simp⟩

theorem dirStep_evs (fp : List Nat → List Nat) (src rep : Path) (fs0 : Fs) (st : St)
    (d : Path) : ∃ t, (dirStep fp src rep fs0 st d).evs = st.evs ++ t := by
  unfold dirStep
  exact @foldl_pres Path St (fun s => ∃ t, s.evs = st.evs ++ t) _ _ _
    (mkdirStep_evs src rep st d)
    (fun sf _ s hs => evs_extend_trans hs (copyStep_evs fp d _ s sf))

theorem pruneDir_evs (src rep : Path) (fsA : Fs) (st : St) (d : Path) :
    ∃ t, (pruneDir src rep fsA st d).evs = st.evs ++ t := by
  unfold pruneDir
  exact @foldl_pres Path St (fun s => ∃ t, s.evs = st.evs ++ t) _ _ _
    ⟨[], by simp⟩
    (fun rf _ s hs => evs_extend_trans hs (pruneStep_evs src rep s rf))

/-! ### `os.makedirs` creates its whole argument list as directories -/

theorem mkdirsGo_all_dirs :
    ∀ (L : List Path) (fs fs' : Fs), mkdirsGo fs L = Except.ok fs' →
      ∀ q, q ∈ L → getEntry fs' q = some Entry.dir := by
  intro L
  induction L with
  | nil => intro fs fs' h q hq; simp at hq
  | cons r rest ih =>
    intro fs fs' h q hq
    unfold mkdirsGo at h
    cases he : getEntry fs r with
    | some e =>
      cases e with
      | dir =>
        rw [he] at h
        rcases List.mem_cons.mp hq with h1 | h1
        · subst h1
          exact mkdirsGo_pres_some rest fs fs' q Entry.dir he h
        · exact ih fs fs' h q h1
      | file c =>
        rw [he] at h
        exact absurd h (by simp)
    | none =>
      rw [he] at h
      rcases List.mem_cons.mp hq with h1 | h1
      · subst h1
        exact mkdirsGo_pres_some rest _ fs' q Entry.dir
          (getEntry_setEntry_self fs q Entry.dir) h
      · exact ih _ fs' h q h1

theorem makedirsE_target_dir (fs fs' : Fs) (p : Path)
    (h : makedirsE fs p = Except.ok fs') : getEntry fs' p = some Entry.dir := by
  unfold makedirsE at h
  exact mkdirsGo_all_dirs _ fs fs' h p (by simp)

/-! ### Walk and listing stability under replica-side mutation -/

theorem walkEntry_none (root k : Path) (hk : ¬ isUnder root k) (e1 : Entry) :
    walkEntry root (k, e1) = none := by
  cases e1 with
  | file c => rfl
  | dir => simp [walkEntry, hk]

theorem childEntry_none (d k : Path) (hk : ¬ d ++ ['/'] <+: k) (e1 : Entry) :
    childEntry d (k, e1) = none := by
  cases e1 with
  | dir => rfl
  | file c => simp [childEntry, hk]

theorem walkDirs_setEntry (fs : Fs) (k : Path) (e : Entry) (root : Path)
    (hk : ¬ isUnder root k) : walkDirs (setEntry fs k e) root = walkDirs fs root := by
  induction fs with
  | nil =>
    rw [setEntry_nil]
    unfold walkDirs
    rw [List.filterMap_cons, walkEntry_none root k hk e]
  | cons pe rest ih =>
    obtain ⟨q, e0⟩ := pe
    by_cases hq : q = k
    · subst hq
      rw [setEntry_cons_self]
      unfold walkDirs
      rw [List.filterMap_cons, List.filterMap_cons, walkEntry_none root q hk e,
        walkEntry_none root q hk e0]
    · rw [setEntry_cons_ne q e0 rest k e hq]
      unfold walkDirs at ih ⊢
      rw [List.filterMap_cons, List.filterMap_cons, ih]

theorem walkDirs_removeEntry (fs : Fs) (k root : Path) (hk : ¬ isUnder root k) :
    walkDirs (removeEntry fs k) root = walkDirs fs root := by
  induction fs with
  | nil => rfl
  | cons pe rest ih =>
    obtain ⟨q, e0⟩ := pe
    unfold removeEntry
    by_cases hq : q = k
    · rw [if_pos hq]
      subst hq
      unfold walkDirs
      rw [List.filterMap_cons, walkEntry_none root q hk e0]
      exact ih
    · rw [if_neg hq]
      unfold walkDirs at ih ⊢
      rw [List.filterMap_cons, List.filterMap_cons, ih]

theorem childFiles_setEntry (fs : Fs) (k : Path) (e : Entry) (d : Path)
    (hk : ¬ d ++ ['/'] <+: k) : childFiles (setEntry fs k e) d = childFiles fs d := by
  induction fs with
  | nil =>
    rw [setEntry_nil]
    unfold childFiles
    rw [List.filterMap_cons, childEntry_none d k hk e]
  | cons pe rest ih =>
    obtain ⟨q, e0⟩ := pe
    by_cases hq : q = k
    · subst hq
      rw [setEntry_cons_self]
      unfold childFiles
      rw [List.filterMap_cons, List.filterMap_cons, childEntry_none d q hk e,
        childEntry_none d q hk e0]
    · rw [setEntry_cons_ne q e0 rest k e hq]
      unfold childFiles at ih ⊢
      rw [List.filterMap_cons, List.filterMap_cons, ih]

theorem childFiles_removeEntry (fs : Fs) (k d : Path) (hk : ¬ d ++ ['/'] <+: k) :
    childFiles (removeEntry fs k) d = childFiles fs d := by
  induction fs with
  | nil => rfl
  | cons pe rest ih =>
    obtain ⟨q, e0⟩ := pe
    unfold removeEntry
    by_cases hq : q = k
    · rw [if_pos hq]
      subst hq
      unfold childFiles
      rw [List.filterMap_cons, childEntry_none d q hk e0]
      exact ih
    · rw [if_neg hq]
      unfold childFiles at ih ⊢
      rw [List.filterMap_cons, List.filterMap_cons, ih]

/-! ### Run-level mutation frame: every mutation is at a path comparable with
the replica root (below it, or a created ancestor of it) -/

theorem rep_prefix_childFile (fsA : Fs) (rep d rf : Path) (hd : isUnder rep d)
    (hrf : rf ∈ childFiles fsA d) : rep <+: rf :=
  (List.prefix_append rep ['/']).trans (childFiles_under fsA d rf rep hd hrf)

theorem sync_fs_safe (fp : List Nat → List Nat) (fs0 : Fs) (src rep : Path)
    (P : Fs → Prop)
    (hset : ∀ g k e, (rep <+: k ∨ k <+: rep) → P g → P (setEntry g k e))
    (hrem : ∀ g k, rep <+: k → P g → P (removeEntry g k))
    (hP : P fs0) : P (sync_folders fp fs0 src rep).fs := by
  apply sync_pres fp fs0 src rep (fun st => P st.fs)
  · intro st d hd hPst
    have hu : isUnder src d := ((walkDirs_mem fs0 src d).mp hd).2
    have hrp : rep <+: replaceFirst d src rep := rep_prefix_replaceFirst src rep d hu
    exact dirStep_fsP P fp src rep fs0 st d
      (fun k hk g _ hg =>
        hset g k Entry.dir (makedirs_key_comparable rep (replaceFirst d src rep) k hrp hk) hg)
      (fun g c sf _ _ hg =>
        hset g (targetOf d (replaceFirst d src rep) sf) (Entry.file c)
          (Or.inl (rep_prefix_targetOf rep d (replaceFirst d src rep) sf hrp)) hg)
      hPst
  · intro fsA st d hd hPst
    have hu : isUnder rep d := ((walkDirs_mem fsA rep d).mp hd).2
    exact pruneDir_fsP P src rep fsA st d
      (fun g c rf hrf _ hg => hrem g rf (rep_prefix_childFile fsA rep d rf hu hrf) hg)
      hPst
  · exact hP

theorem sync_frame (fp : List Nat → List Nat) (fs0 : Fs) (src rep q : Path)
    (h1 : ¬ rep <+: q) (h2 : ¬ q <+: rep) :
    getEntry (sync_folders fp fs0 src rep).fs q = getEntry fs0 q := by
  apply sync_fs_safe fp fs0 src rep (fun g => getEntry g q = getEntry fs0 q)
  · intro g k e hcomp hg
    have hne : q ≠ k := by
      intro h
      subst h
      rcases hcomp with h | h
      · exact h1 h
      · exact h2 h
    rw [getEntry_setEntry_ne g k q e hne]
    exact hg
  · intro g k hk hg
    have hne : q ≠ k := by
      intro h
      subst h
      exact h1 hk
    rw [getEntry_removeEntry_ne g k q hne]
    exact hg
  · rfl

theorem src_not_rep_comparable (src rep q : Path) (hd1 : ¬ src <+: rep)
    (hd2 : ¬ rep <+: src) (hq : src <+: q) : ¬ rep <+: q ∧ ¬ q <+: rep :=
  ⟨fun h => not_under_both src rep q hd1 hd2 hq h,
   fun h => not_src_prefix_of_rep src rep q hd1 hq h⟩

theorem sync_source_frame (fp : List Nat → List Nat) (fs0 : Fs) (src rep q : Path)
    (hd1 : ¬ src <+: rep) (hd2 : ¬ rep <+: src) (hq : src <+: q) :
    getEntry (sync_folders fp fs0 src rep).fs q = getEntry fs0 q := by
  obtain ⟨h1, h2⟩ := src_not_rep_comparable src rep q hd1 hd2 hq
  exact sync_frame fp fs0 src rep q h1 h2

theorem sync_nodup (fp : List Nat → List Nat) (fs0 : Fs) (src rep : Path)
    (hnd : (fs0.map Prod.fst).Nodup) :
    ((sync_folders fp fs0 src rep).fs.map Prod.fst).Nodup := by
  apply sync_fs_safe fp fs0 src rep (fun g => (g.map Prod.fst).Nodup)
  · intro g k e _ hg
    exact setEntry_nodup g k e hg
  · intro g k _ hg
    exact removeEntry_nodup g k hg
  · exact hnd

theorem under_src_not_safe (src rep k : Path) (hd1 : ¬ src <+: rep)
    (hd2 : ¬ rep <+: src) (hcomp : rep <+: k ∨ k <+: rep) (hk : src <+: k) : False := by
  rcases hcomp with h | h
  · exact not_under_both src rep k hd1 hd2 hk h
  · exact not_src_prefix_of_rep src rep k hd1 hk h

theorem sync_walk_stable (fp : List Nat → List Nat) (fs0 : Fs) (src rep : Path)
    (hd1 : ¬ src <+: rep) (hd2 : ¬ rep <+: src) :
    walkDirs (sync_folders fp fs0 src rep).fs src = walkDirs fs0 src ∧
      ∀ d, d ∈ walkDirs fs0 src →
        childFiles (sync_folders fp fs0 src rep).fs d = childFiles fs0 d := by
  apply sync_fs_safe fp fs0 src rep
    (fun g => walkDirs g src = walkDirs fs0 src ∧
      ∀ d, d ∈ walkDirs fs0 src → childFiles g d = childFiles fs0 d)
  · intro g k e hcomp hg
    have hku : ¬ isUnder src k := fun h =>
      under_src_not_safe src rep k hd1 hd2 hcomp (isUnder_pre src k h)
    refine ⟨(walkDirs_setEntry g k e src hku).trans hg.1, fun d hd => ?_⟩
    have hdk : ¬ d ++ ['/'] <+: k := by
      intro h
      have hu : isUnder src d := ((walkDirs_mem fs0 src d).mp hd).2
      exact under_src_not_safe src rep k hd1 hd2 hcomp
        ((isUnder_pre src d hu).trans ((List.prefix_append d ['/']).trans h))
    exact (childFiles_setEntry g k e d hdk).trans (hg.2 d hd)
  · intro g k hk hg
    have hku : ¬ isUnder src k := fun h =>
      under_src_not_safe src rep k hd1 hd2 (Or.inl hk) (isUnder_pre src k h)
    refine ⟨(walkDirs_removeEntry g k src hku).trans hg.1, fun d hd => ?_⟩
    have hdk : ¬ d ++ ['/'] <+: k := by
      intro h
      have hu : isUnder src d := ((walkDirs_mem fs0 src d).mp hd).2
      exact under_src_not_safe src rep k hd1 hd2 (Or.inl hk)
        ((isUnder_pre src d hu).trans ((List.prefix_append d ['/']).trans h))
    exact (childFiles_removeEntry g k d hdk).trans (hg.2 d hd)
  · exact ⟨rfl, fun d _ => rfl⟩

/-! ### Directories are never removed or overwritten -/

theorem dirStep_dir_pres (fp : List Nat → List Nat) (src rep : Path) (fs0 : Fs)
    (st : St) (d q : Path) (hq : getEntry st.fs q = some Entry.dir) :
    getEntry (dirStep fp src rep fs0 st d).fs q = some Entry.dir := by
  unfold dirStep
  exact @foldl_pres Path St (fun s => getEntry s.fs q = some Entry.dir) _ _ _
    (mkdirStep_pres_some src rep st d q Entry.dir hq)
    (fun sf _ s hs => copyStep_dir_pres fp d _ s sf q hs)

theorem pruneDir_dir_pres (src rep : Path) (fsA : Fs) (st : St) (d q : Path)
    (hq : getEntry st.fs q = some Entry.dir) :
    getEntry (pruneDir src rep fsA st d).fs q = some Entry.dir := by
  unfold pruneDir
  exact @foldl_pres Path St (fun s => getEntry s.fs q = some Entry.dir) _ _ _ hq
    (fun rf _ s hs => pruneStep_dir_pres src rep s rf q hs)

theorem sync_dir_pres (fp : List Nat → List Nat) (fs0 : Fs) (src rep q : Path)
    (hq : getEntry fs0 q = some Entry.dir) :
    getEntry (sync_folders fp fs0 src rep).fs q = some Entry.dir := by
  apply sync_pres fp fs0 src rep (fun st => getEntry st.fs q = some Entry.dir)
  · intro st d _ hst
    exact dirStep_dir_pres fp src rep fs0 st d q hst
  · intro fsA st d _ hst
    exact pruneDir_dir_pres src rep fsA st d q hst
  · exact hq

/-! ### Ancestor-set lemmas and the refined mutation frame -/

theorem ancestorsOf_mem_iff (p k : Path) :
    k ∈ ancestorsOf p ↔
      ∃ i, i < p.length ∧ i ≠ 0 ∧ p.get? i = some '/' ∧ k = p.take i := by
  unfold ancestorsOf
  rw [List.mem_filterMap]
  constructor
  · rintro ⟨i, hi, hf⟩
    rw [List.mem_range] at hi
    split at hf
    · rename_i hc
      simp only [Option.some.injEq] at hf
      exact ⟨i, hi, hc.1, hc.2, hf.symm⟩
    · exact absurd hf (by simp)
  · rintro ⟨i, hi, h0, hs, hk⟩
    exact ⟨i, List.mem_range.mpr hi, by rw [if_pos ⟨h0, hs⟩, hk]⟩

theorem anc_of_anc (rep rp k : Path) (hrp : rep <+: rp) (hk : k ∈ ancestorsOf rp)
    (hnr : ¬ rep <+: k) : k ∈ ancestorsOf rep := by
  obtain ⟨i, hi, h0, hs, hki⟩ := (ancestorsOf_mem_iff rp k).mp hk
  have hkpre : k <+: rp := hki ▸ List.take_prefix i rp
  rcases List.prefix_or_prefix_of_prefix hkpre hrp with hkr | hkr
  · have hklen : k.length = i := by
      rw [hki, List.length_take]
      omega
    have hne : k ≠ rep := fun h => hnr (h ▸ List.prefix_refl rep)
    have hlt : i < rep.length := by
      have hle : k.length ≤ rep.length := hkr.length_le
      rcases Nat.lt_or_ge k.length rep.length with h | h
      · omega
      · exact absurd (hkr.eq_of_length (Nat.le_antisymm hle h)) hne
    have hrep : rep = rp.take rep.length := List.prefix_iff_eq_take.mp hrp
    refine (ancestorsOf_mem_iff rep k).mpr ⟨i, hlt, h0, ?_, ?_⟩
    · rw [hrep, List.get?_take hlt]
      exact hs
    · rw [hrep, List.take_take, Nat.min_eq_left (Nat.le_of_lt hlt)]
      exact hki
  · exact absurd hkr hnr

theorem sync_fs_safe2 (fp : List Nat → List Nat) (fs0 : Fs) (src rep : Path)
    (P : Fs → Prop)
    (hset_rep : ∀ g k e, rep <+: k → P g → P (setEntry g k e))
    (hset_anc : ∀ g k, k ∈ ancestorsOf rep → getEntry g k = none → P g →
      P (setEntry g k Entry.dir))
    (hrem : ∀ g k, rep <+: k → P g → P (removeEntry g k))
    (hP : P fs0) : P (sync_folders fp fs0 src rep).fs := by
  apply sync_pres fp fs0 src rep (fun st => P st.fs)
  · intro st d hd hPst
    have hu : isUnder src d := ((walkDirs_mem fs0 src d).mp hd).2
    have hrp : rep <+: replaceFirst d src rep := rep_prefix_replaceFirst src rep d hu
    apply dirStep_fsP P fp src rep fs0 st d _ _ hPst
    · intro k hk g hnone hg
      by_cases hr : rep <+: k
      · exact hset_rep g k Entry.dir hr hg
      · have hk2 : k ∈ ancestorsOf (replaceFirst d src rep) := by
          rcases List.mem_append.mp hk with h | h
          · exact h
          · simp only [List.mem_singleton] at h
            subst h
            exact absurd hrp hr
        exact hset_anc g k (anc_of_anc rep _ k hrp hk2 hr) hnone hg
    · intro g c sf _ _ hg
      exact hset_rep g _ (Entry.file c) (rep_prefix_targetOf rep d _ sf hrp) hg
  · intro fsA st d hd hPst
    have hu : isUnder rep d := ((walkDirs_mem fsA rep d).mp hd).2
    exact pruneDir_fsP P src rep fsA st d
      (fun g c rf hrf _ hg => hrem g rf (rep_prefix_childFile fsA rep d rf hu hrf) hg)
      hPst
  · exact hP

/-! ### Reach combinators with first-occurrence exclusion -/

theorem foldl_reach2 {β : Type} {P Q : β → Prop} (f : β → Path → β) (x : Path) :
    ∀ (l : List Path), x ∈ l →
      (∀ y, y ∈ l → y ≠ x → ∀ s, P s → P (f s y)) →
      (∀ s, P s → Q (f s x)) →
      (∀ y, y ∈ l → ∀ s, Q s → Q (f s y)) →
      ∀ b, P b → Q (l.foldl f b) := by
  intro l
  induction l with
  | nil => intro hx; simp at hx
  | cons y ys ih =>
    intro hx hP hest hQ b hb
    by_cases hyx : y = x
    · subst hyx
      exact foldl_pres f ys (f b y) (hest b hb)
        (fun z hz s hs => hQ z (List.mem_cons_of_mem y hz) s hs)
    · have hxys : x ∈ ys := by
        rcases List.mem_cons.mp hx with h | h
        · exact absurd h.symm hyx
        · exact h
      exact ih hxys (fun z hz hzx s hs => hP z (List.mem_cons_of_mem y hz) hzx s hs) hest
        (fun z hz s hs => hQ z (List.mem_cons_of_mem y hz) s hs)
        (f b y) (hP y (List.mem_cons_self y ys) hyx b hb)

theorem sync_reach (fp : List Nat → List Nat) (fs0 : Fs) (src rep : Path)
    (P Q : St → Prop) (d0 : Path) (hd0 : d0 ∈ walkDirs fs0 src)
    (hAP : ∀ st d, d ∈ walkDirs fs0 src → d ≠ d0 → P st →
      P (dirStep fp src rep fs0 st d))
    (hest : ∀ st, P st → Q (dirStep fp src rep fs0 st d0))
    (hAQ : ∀ st d, d ∈ walkDirs fs0 src → Q st → Q (dirStep fp src rep fs0 st d))
    (hBQ : ∀ fsA st d, d ∈ walkDirs fsA rep → Q st → Q (pruneDir src rep fsA st d))
    (h0 : P ⟨fs0, [], none⟩) : Q (sync_folders fp fs0 src rep) := by
  unfold sync_folders
  have hQA : Q (syncPhaseA fp fs0 src rep) := by
    unfold syncPhaseA
    exact foldl_reach2 _ d0 _ hd0 (fun y hy hyx s hs => hAP s y hy hyx hs) hest
      (fun y hy s hs => hAQ s y hy hs) _ h0
  exact foldl_pres _ _ _ hQA (fun d hd st hst => hBQ _ st d hd hst)

theorem dirStep_reach (P Q : St → Prop) (fp : List Nat → List Nat) (src rep : Path)
    (fs0 : Fs) (d sf0 : Path) (hsf0 : sf0 ∈ childFiles fs0 d)
    (hmk : ∀ st, P st → P (mkdirStep src rep st d))
    (hPc : ∀ st sf, sf ∈ childFiles fs0 d → sf ≠ sf0 → P st →
      P (copyStep fp d (replaceFirst d src rep) st sf))
    (hest : ∀ st, P st → Q (copyStep fp d (replaceFirst d src rep) st sf0))
    (hQc : ∀ st sf, sf ∈ childFiles fs0 d → Q st →
      Q (copyStep fp d (replaceFirst d src rep) st sf)) :
    ∀ st, P st → Q (dirStep fp src rep fs0 st d) := by
  intro st hst
  unfold dirStep
  exact foldl_reach2 _ sf0 _ hsf0 (fun y hy hyx s hs => hPc s y hy hyx hs) hest
    (fun y hy s hs => hQc s y hy hs) _ (hmk st hst)

theorem sync_prune_reach (fp : List Nat → List Nat) (fs0 : Fs) (src rep : Path)
    (P Q : St → Prop) (d0 : Path)
    (hd0 : d0 ∈ walkDirs (syncPhaseA fp fs0 src rep).fs rep)
    (hP0 : P (syncPhaseA fp fs0 src rep))
    (hPp : ∀ st d, d ∈ walkDirs (syncPhaseA fp fs0 src rep).fs rep → d ≠ d0 → P st →
      P (pruneDir src rep (syncPhaseA fp fs0 src rep).fs st d))
    (hest : ∀ st, P st → Q (pruneDir src rep (syncPhaseA fp fs0 src rep).fs st d0))
    (hQp : ∀ st d, d ∈ walkDirs (syncPhaseA fp fs0 src rep).fs rep → Q st →
      Q (pruneDir src rep (syncPhaseA fp fs0 src rep).fs st d)) :
    Q (sync_folders fp fs0 src rep) := by
  unfold sync_folders
  exact foldl_reach2 _ d0 _ hd0 (fun y hy hyx s hs => hPp s y hy hyx hs) hest
    (fun y hy s hs => hQp s y hy hs) _ hP0

theorem pruneDir_reach (P Q : St → Prop) (src rep : Path) (fsA : Fs) (d rf0 : Path)
    (hrf0 : rf0 ∈ childFiles fsA d)
    (hPp : ∀ st rf, rf ∈ childFiles fsA d → rf ≠ rf0 → P st →
      P (pruneStep src rep st rf))
    (hest : ∀ st, P st → Q (pruneStep src rep st rf0))
    (hQp : ∀ st rf, rf ∈ childFiles fsA d → Q st → Q (pruneStep src rep st rf)) :
    ∀ st, P st → Q (pruneDir src rep fsA st d) := by
  intro st hst
  unfold pruneDir
  exact foldl_reach2 _ rf0 _ hrf0 (fun y hy hyx s hs => hPp s y hy hyx hs) hest
    (fun y hy s hs => hQp s y hy hs) _ hst

/-! ### Outcome trichotomies for the steps -/

theorem err_isSome_of_ne {st : St} (h : st.err ≠ none) : st.err.isSome = true :=
  Option.isSome_iff_ne_none.mpr h

theorem copyStep_cases (fp : List Nat → List Nat) (d rp : Path) (st : St) (sf : Path) :
    copyStep fp d rp st sf = st ∨
    ((copyStep fp d rp st sf).fs = st.fs ∧ (copyStep fp d rp st sf).evs = st.evs ∧
      (copyStep fp d rp st sf).err ≠ none) ∨
    (st.err = none ∧ ∃ c, getEntry st.fs sf = some (Entry.file c) ∧
      getEntry st.fs (targetOf d rp sf) ≠ some Entry.dir ∧
      copyStep fp d rp st sf =
        ⟨setEntry st.fs (targetOf d rp sf) (Entry.file c),
          st.evs ++ [Event.copied sf (targetOf d rp sf)], none⟩) := by
  unfold copyStep
  split
  · exact Or.inl rfl
  next herr =>
    have hok : st.err = none := by
      cases h : st.err with
      | none => rfl
      | some e => rw [h] at herr; simp at herr
    split
    · split
      · exact Or.inr (Or.inl ⟨rfl, rfl, by simp⟩)
      · split
        · exact Or.inr (Or.inl ⟨rfl, rfl, by simp⟩)
        · split
          · exact Or.inl rfl
          · split
            · exact Or.inr (Or.inl ⟨rfl, rfl, by simp⟩)
            · rename_i fs2 hcopy
              obtain ⟨c, hc, hnd, h2⟩ := copy2E_ok st.fs fs2 sf _ hcopy
              exact Or.inr (Or.inr ⟨hok, c, hc, hnd, by rw [h2]⟩)
    · split
      · exact Or.inr (Or.inl ⟨rfl, rfl, by simp⟩)
      · rename_i fs2 hcopy
        obtain ⟨c, hc, hnd, h2⟩ := copy2E_ok st.fs fs2 sf _ hcopy
        exact Or.inr (Or.inr ⟨hok, c, hc, hnd, by rw [h2]⟩)

theorem mkdirStep_cases (src rep : Path) (st : St) (d : Path) :
    mkdirStep src rep st d = st ∨
    ((mkdirStep src rep st d).fs = st.fs ∧ (mkdirStep src rep st d).evs = st.evs ∧
      (mkdirStep src rep st d).err ≠ none) ∨
    (st.err = none ∧ ¬ existsPath st.fs (replaceFirst d src rep) ∧
      ∃ fs2, makedirsE st.fs (replaceFirst d src rep) = Except.ok fs2 ∧
        mkdirStep src rep st d =
          ⟨fs2, st.evs ++ [Event.created (replaceFirst d src rep)], none⟩) := by
  unfold mkdirStep
  split
  · exact Or.inl rfl
  next herr =>
    have hok : st.err = none := by
      cases h : st.err with
      | none => rfl
      | some e => rw [h] at herr; simp at herr
    split
    · exact Or.inl rfl
    next hmiss =>
      split
      · exact Or.inr (Or.inl ⟨rfl, rfl, by simp⟩)
      · rename_i fs2 hmk
        exact Or.inr (Or.inr ⟨hok, hmiss, fs2, hmk, rfl⟩)

theorem pruneStep_cases (src rep : Path) (st : St) (rf : Path) :
    pruneStep src rep st rf = st ∨
    ((pruneStep src rep st rf).fs = st.fs ∧ (pruneStep src rep st rf).evs = st.evs ∧
      (pruneStep src rep st rf).err ≠ none) ∨
    (st.err = none ∧ ¬ existsPath st.fs (replaceFirst rf rep src) ∧
      ∃ c, getEntry st.fs rf = some (Entry.file c) ∧
        pruneStep src rep st rf =
          ⟨removeEntry st.fs rf, st.evs ++ [Event.removed rf], none⟩) := by
  unfold pruneStep
  split
  · exact Or.inl rfl
  next herr =>
    have hok : st.err = none := by
      cases h : st.err with
      | none => rfl
      | some e => rw [h] at herr; simp at herr
    split
    · exact Or.inl rfl
    next hmiss =>
      split
      · exact Or.inr (Or.inl ⟨rfl, rfl, by simp⟩)
      · rename_i fs2 hrm
        obtain ⟨c, hc, h2⟩ := removeE_ok st.fs fs2 rf hrm
        exact Or.inr (Or.inr ⟨hok, hmiss, c, hc, by rw [h2]⟩)

theorem mkdirStep_getEntry_cases (src rep : Path) (st : St) (d q : Path) :
    getEntry (mkdirStep src rep st d).fs q = getEntry st.fs q ∨
    getEntry (mkdirStep src rep st d).fs q = some Entry.dir := by
  apply mkdirStep_fsP
    (fun g => getEntry g q = getEntry st.fs q ∨ getEntry g q = some Entry.dir)
    src rep st d
  · intro k _ g hk hg
    by_cases hkq : k = q
    · subst hkq
      exact Or.inr (getEntry_setEntry_self g k Entry.dir)
    · have hg2 : getEntry g q = getEntry st.fs q ∨ getEntry g q = some Entry.dir := hg
      rcases hg2 with h | h
      · exact Or.inl (by rw [getEntry_setEntry_ne g k q Entry.dir (Ne.symm hkq)]; exact h)
      · exact Or.inr (by rw [getEntry_setEntry_ne g k q Entry.dir (Ne.symm hkq)]; exact h)
  · exact Or.inl rfl

/-! ### Path-splitting facts used by the run-level proofs -/

theorem targetOf_mirror (src rep d sf : Path) (hd : src <+: d)
    (hsf : d ++ ['/'] <+: sf) :
    targetOf d (replaceFirst d src rep) sf = mirrorPath src rep sf := by
  have hsplit : sf = d ++ '/' :: sf.drop (d.length + 1) := by
    have h1 : (d ++ ['/']) ++ sf.drop ((d ++ ['/']).length) = sf :=
      prefix_append_drop _ sf hsf
    have h2 : (d ++ ['/']).length = d.length + 1 := by simp
    rw [h2] at h1
    calc sf = (d ++ ['/']) ++ sf.drop (d.length + 1) := h1.symm
      _ = d ++ '/' :: sf.drop (d.length + 1) := by simp

  unfold targetOf
  rw [mirrorPath_eq_replaceFirst src rep d hd]
  conv_rhs => rw [hsplit]
  rw [mirrorPath_join src rep d _ hd]

theorem split_unique (d1 b1 d2 b2 : Path) (h : d1 ++ '/' :: b1 = d2 ++ '/' :: b2)
    (h1 : '/' ∉ b1) (h2 : '/' ∉ b2) : d1 = d2 ∧ b1 = b2 := by
  have e1 : lastSplit (d1 ++ '/' :: b1) = some (d1, b1) := lastSplit_complete d1 b1 h1
  have e2 : lastSplit (d2 ++ '/' :: b2) = some (d2, b2) := lastSplit_complete d2 b2 h2
  rw [h, e2] at e1
  injection e1 with e
  injection e with ha hb
  exact ⟨ha.symm, hb.symm⟩

theorem childFiles_parent_unique (fs : Fs) (d1 d2 sf : Path)
    (h1 : sf ∈ childFiles fs d1) (h2 : sf ∈ childFiles fs d2) : d1 = d2 := by
  obtain ⟨-, -, hn1⟩ := (childFiles_mem fs d1 sf).mp h1
  obtain ⟨-, -, hn2⟩ := (childFiles_mem fs d2 sf).mp h2
  have e1 := childFiles_split fs d1 sf h1
  have e2 := childFiles_split fs d2 sf h2
  exact (split_unique d1 _ d2 _ (e1.symm.trans e2) hn1 hn2).1

theorem parent_under (root p dp bp : Path) (hu : root ++ ['/'] <+: p)
    (hsplit : p = dp ++ '/' :: bp) (hnb : '/' ∉ bp) : isUnder root dp := by
  rcases Nat.lt_trichotomy dp.length root.length with hlt | heq | hgt
  · exfalso
    have hsl : p.get? root.length = some '/' := by
      obtain ⟨t, ht⟩ := hu
      rw [← ht, List.append_assoc, List.get?_append_right (Nat.le_refl root.length)]
      simp
    rw [hsplit, List.get?_append_right (by omega : dp.length ≤ root.length)] at hsl
    have hpos : root.length - dp.length = (root.length - dp.length - 1) + 1 := by omega
    rw [hpos, List.get?_cons_succ] at hsl
    exact hnb (List.get?_mem hsl)
  · left
    have h1 : p.take dp.length = dp := by
      rw [hsplit]
      exact List.take_left dp _
    have h2 : root = p.take root.length :=
      List.prefix_iff_eq_take.mp ((List.prefix_append root ['/']).trans hu)
    rw [← h1, h2, heq]
  · right
    have h1 : root ++ ['/'] = p.take (root.length + 1) := by
      have := List.prefix_iff_eq_take.mp hu
      simpa using this
    have h2 : p.take dp.length = dp := by
      rw [hsplit]
      exact List.take_left dp _
    have h3 : p.take (root.length + 1) = (p.take dp.length).take (root.length + 1) := by
      rw [List.take_take, Nat.min_eq_left (by omega : root.length + 1 ≤ dp.length)]
    rw [h1, h3, h2]
    exact List.take_prefix _ _

/-! ### Further small preservation facts -/

theorem getEntry_removeEntry_none (g : Fs) (b q : Path) (h : getEntry g q = none) :
    getEntry (removeEntry g b) q = none := by
  by_cases hqb : q = b
  · subst hqb
    exact getEntry_removeEntry_self g q
  · rw [getEntry_removeEntry_ne g b q hqb]
    exact h

theorem existsPath_removeEntry_ne (g : Fs) (b q : Path) (h : q ≠ b)
    (hq : existsPath g q) : existsPath (removeEntry g b) q := by
  unfold existsPath at hq ⊢
  rw [getEntry_removeEntry_ne g b q h]
  exact hq

/-! ### The central propagation lemma: one listed source file is faithfully
mirrored by a completed run -/

theorem sync_file_propagation_Qcopy (fp : List Nat → List Nat) (fs0 : Fs)
    (src rep : Path) (d0 sf : Path) (hsf : sf ∈ childFiles fs0 d0) (c : List Nat)
    (htarget : targetOf d0 (replaceFirst d0 src rep) sf = mirrorPath src rep sf)
    (htgen : ∀ d2 sf2, d2 ∈ walkDirs fs0 src → sf2 ∈ childFiles fs0 d2 →
      targetOf d2 (replaceFirst d2 src rep) sf2 = mirrorPath src rep sf2 ∧
      sf ≠ targetOf d2 (replaceFirst d2 src rep) sf2 ∧
      (sf2 ≠ sf → mirrorPath src rep sf ≠ targetOf d2 (replaceFirst d2 src rep) sf2))
    (d2 : Path) (hd2 : d2 ∈ walkDirs fs0 src) (sf2 : Path)
    (hsf2 : sf2 ∈ childFiles fs0 d2) (s : St)
    (hs : s.err ≠ none ∨
      (getEntry s.fs sf = some (Entry.file c) ∧
        ∃ c', getEntry s.fs (mirrorPath src rep sf) = some (Entry.file c') ∧
          calculate_md5 fp c' = calculate_md5 fp c ∧
          (getEntry fs0 (mirrorPath src rep sf) = some (Entry.file c') ∨
            (c' = c ∧ Event.copied sf (mirrorPath src rep sf) ∈ s.evs)))) :
    (copyStep fp d2 (replaceFirst d2 src rep) s sf2).err ≠ none ∨
    (getEntry (copyStep fp d2 (replaceFirst d2 src rep) s sf2).fs sf =
        some (Entry.file c) ∧
      ∃ c', getEntry (copyStep fp d2 (replaceFirst d2 src rep) s sf2).fs
            (mirrorPath src rep sf) = some (Entry.file c') ∧
        calculate_md5 fp c' = calculate_md5 fp c ∧
        (getEntry fs0 (mirrorPath src rep sf) = some (Entry.file c') ∨
          (c' = c ∧ Event.copied sf (mirrorPath src rep sf) ∈
            (copyStep fp d2 (replaceFirst d2 src rep) s sf2).evs))) := by
  rcases hs with herr | ⟨hsfe, c', hrfe, hcalc, hdis⟩
  · left
    rw [copyStep_frozen fp d2 _ s sf2 (err_isSome_of_ne herr)]
    exact herr
  · by_cases hsfeq : sf2 = sf
    · subst hsfeq
      have hdd0 : d2 = d0 := childFiles_parent_unique fs0 d2 d0 sf2 hsf2 hsf
      subst hdd0
      cases hserr : s.err with
      | some e =>
        left
        rw [copyStep_frozen fp d2 _ s sf2 (by rw [hserr]; rfl), hserr]
        exact fun h => Option.noConfusion h
      | none =>
        have hrft : getEntry s.fs (targetOf d2 (replaceFirst d2 src rep) sf2) =
            some (Entry.file c') := by
          rw [htarget]
          exact hrfe
        rw [copyStep_skip fp d2 (replaceFirst d2 src rep) s sf2 c c'
          hserr hsfe hrft hcalc.symm]
        exact Or.inr ⟨hsfe, c', hrfe, hcalc, hdis⟩
    · obtain ⟨-, ht1, ht2⟩ := htgen d2 sf2 hd2 hsf2
      rcases copyStep_cases fp d2 (replaceFirst d2 src rep) s sf2 with h | h | h
      · rw [h]
        exact Or.inr ⟨hsfe, c', hrfe, hcalc, hdis⟩
      · exact Or.inl h.2.2
      · obtain ⟨-, c2, -, -, heq⟩ := h
        right
        rw [heq]
        refine ⟨?_, c', ?_, hcalc, ?_⟩
        · show getEntry (setEntry s.fs _ _) sf = _
          rw [getEntry_setEntry_ne _ _ _ _ ht1]
          exact hsfe
        · show getEntry (setEntry s.fs _ _) (mirrorPath src rep sf) = _
          rw [getEntry_setEntry_ne _ _ _ _ (ht2 hsfeq)]
          exact hrfe
        · rcases hdis with h2 | ⟨hcc, hev⟩
          · exact Or.inl h2
          · exact Or.inr ⟨hcc, List.mem_append_left _ hev⟩

theorem sync_file_propagation (fp : List Nat → List Nat) (fs0 : Fs) (src rep : Path)
    (hd1 : ¬ src <+: rep) (hd2 : ¬ rep <+: src)
    (hnd : (fs0.map Prod.fst).Nodup)
    (d0 sf : Path) (hd0 : d0 ∈ walkDirs fs0 src) (hsf : sf ∈ childFiles fs0 d0)
    (c : List Nat) (hc : getEntry fs0 sf = some (Entry.file c)) :
    (sync_folders fp fs0 src rep).err ≠ none ∨
    (getEntry (sync_folders fp fs0 src rep).fs sf = some (Entry.file c) ∧
      ∃ c', getEntry (sync_folders fp fs0 src rep).fs (mirrorPath src rep sf) =
          some (Entry.file c') ∧
        calculate_md5 fp c' = calculate_md5 fp c ∧
        (getEntry fs0 (mirrorPath src rep sf) = some (Entry.file c') ∨
          (c' = c ∧ Event.copied sf (mirrorPath src rep sf) ∈
            (sync_folders fp fs0 src rep).evs))) := by
  have hu0 : isUnder src d0 := ((walkDirs_mem fs0 src d0).mp hd0).2
  have hpre0 : src <+: d0 := isUnder_pre src d0 hu0
  have hsfp : d0 ++ ['/'] <+: sf := ((childFiles_mem fs0 d0 sf).mp hsf).2.1
  have hsrc_sf : src <+: sf :=
    hpre0.trans ((List.prefix_append d0 ['/']).trans hsfp)
  have htarget : targetOf d0 (replaceFirst d0 src rep) sf = mirrorPath src rep sf :=
    targetOf_mirror src rep d0 sf hpre0 hsfp
  have hsf_nc := src_not_rep_comparable src rep sf hd1 hd2 hsrc_sf
  have hsf_ne_rf : sf ≠ mirrorPath src rep sf := by
    intro h
    exact hsf_nc.1 (h ▸ mirrorPath_pre src rep sf)
  have htgen : ∀ d2 sf2, d2 ∈ walkDirs fs0 src → sf2 ∈ childFiles fs0 d2 →
      targetOf d2 (replaceFirst d2 src rep) sf2 = mirrorPath src rep sf2 ∧
      sf ≠ targetOf d2 (replaceFirst d2 src rep) sf2 ∧
      (sf2 ≠ sf → mirrorPath src rep sf ≠ targetOf d2 (replaceFirst d2 src rep) sf2) := by
    intro d2 sf2 hd2 hsf2
    have hu2 : isUnder src d2 := ((walkDirs_mem fs0 src d2).mp hd2).2
    have hpre2 : src <+: d2 := isUnder_pre src d2 hu2
    have hsfp2 : d2 ++ ['/'] <+: sf2 := ((childFiles_mem fs0 d2 sf2).mp hsf2).2.1
    have hsrc2 : src <+: sf2 :=
      hpre2.trans ((List.prefix_append d2 ['/']).trans hsfp2)
    have ht : targetOf d2 (replaceFirst d2 src rep) sf2 = mirrorPath src rep sf2 :=
      targetOf_mirror src rep d2 sf2 hpre2 hsfp2
    refine ⟨ht, ?_, ?_⟩
    · intro h
      rw [ht] at h
      exact hsf_nc.1 (h ▸ mirrorPath_pre src rep sf2)
    · intro hne h
      rw [ht] at h
      exact hne (mirrorPath_inj src rep sf2 sf hsrc2 hsrc_sf h.symm)
  apply sync_reach fp fs0 src rep
    (fun st => st.err ≠ none ∨
      (st.err = none ∧ getEntry st.fs sf = some (Entry.file c) ∧
        (getEntry st.fs (mirrorPath src rep sf) = getEntry fs0 (mirrorPath src rep sf) ∨
          getEntry st.fs (mirrorPath src rep sf) = some Entry.dir)))
    (fun st => st.err ≠ none ∨
      (getEntry st.fs sf = some (Entry.file c) ∧
        ∃ c', getEntry st.fs (mirrorPath src rep sf) = some (Entry.file c') ∧
          calculate_md5 fp c' = calculate_md5 fp c ∧
          (getEntry fs0 (mirrorPath src rep sf) = some (Entry.file c') ∨
            (c' = c ∧ Event.copied sf (mirrorPath src rep sf) ∈ st.evs))))
    d0 hd0
  case hAP =>
    intro st d2 hd2 hne hP
    rcases hP with herr | ⟨hok, hsfe, hrfe⟩
    · left
      rw [dirStep_frozen fp src rep fs0 st d2 (err_isSome_of_ne herr)]
      exact herr
    · unfold dirStep
      refine @foldl_pres Path St
        (fun s => s.err ≠ none ∨
          (s.err = none ∧ getEntry s.fs sf = some (Entry.file c) ∧
            (getEntry s.fs (mirrorPath src rep sf) =
                getEntry fs0 (mirrorPath src rep sf) ∨
              getEntry s.fs (mirrorPath src rep sf) = some Entry.dir)))
        _ _ _ ?_ ?_
      · show (mkdirStep src rep st d2).err ≠ none ∨
          ((mkdirStep src rep st d2).err = none ∧
            getEntry (mkdirStep src rep st d2).fs sf = some (Entry.file c) ∧
            (getEntry (mkdirStep src rep st d2).fs (mirrorPath src rep sf) =
                getEntry fs0 (mirrorPath src rep sf) ∨
              getEntry (mkdirStep src rep st d2).fs (mirrorPath src rep sf) =
                some Entry.dir))
        cases herr2 : (mkdirStep src rep st d2).err with
        | some e =>
          exact Or.inl (fun h => Option.noConfusion h)
        | none =>
          right
          refine ⟨rfl, mkdirStep_pres_some src rep st d2 sf _ hsfe, ?_⟩
          rcases mkdirStep_getEntry_cases src rep st d2 (mirrorPath src rep sf) with h | h
          · rw [h]
            exact hrfe
          · exact Or.inr h
      · intro sf2 hsf2 s hs
        rcases hs with herr | ⟨hok2, hsfe2, hrfe2⟩
        · left
          rw [copyStep_frozen fp d2 _ s sf2 (err_isSome_of_ne herr)]
          exact herr
        · obtain ⟨-, ht1, ht2⟩ := htgen d2 sf2 hd2 hsf2
          have hsfne : sf2 ≠ sf := by
            intro h
            subst h
            exact hne (childFiles_parent_unique fs0 d2 d0 sf2 hsf2 hsf)
          rcases copyStep_cases fp d2 (replaceFirst d2 src rep) s sf2 with h | h | h
          · rw [h]
            exact Or.inr ⟨hok2, hsfe2, hrfe2⟩
          · exact Or.inl h.2.2
          · obtain ⟨-, c2, -, -, heq⟩ := h
            right
            rw [heq]
            refine ⟨rfl, ?_, ?_⟩
            · show getEntry (setEntry s.fs _ _) sf = _
              rw [getEntry_setEntry_ne _ _ _ _ ht1]
              exact hsfe2
            · show getEntry (setEntry s.fs _ _) (mirrorPath src rep sf) =
                    getEntry fs0 (mirrorPath src rep sf) ∨
                  getEntry (setEntry s.fs _ _) (mirrorPath src rep sf) = some Entry.dir
              rw [getEntry_setEntry_ne _ _ _ _ (ht2 hsfne)]
              exact hrfe2
  case hest =>
    intro st hP
    refine dirStep_reach
      (fun s => s.err ≠ none ∨
        (s.err = none ∧ getEntry s.fs sf = some (Entry.file c) ∧
          (getEntry s.fs (mirrorPath src rep sf) =
              getEntry fs0 (mirrorPath src rep sf) ∨
            getEntry s.fs (mirrorPath src rep sf) = some Entry.dir)))
      (fun s => s.err ≠ none ∨
        (getEntry s.fs sf = some (Entry.file c) ∧
          ∃ c', getEntry s.fs (mirrorPath src rep sf) = some (Entry.file c') ∧
            calculate_md5 fp c' = calculate_md5 fp c ∧
            (getEntry fs0 (mirrorPath src rep sf) = some (Entry.file c') ∨
              (c' = c ∧ Event.copied sf (mirrorPath src rep sf) ∈ s.evs))))
      fp src rep fs0 d0 sf hsf ?_ ?_ ?_ ?_ st hP
    · intro s hs
      rcases hs with herr | ⟨-, hsfe, hrfe⟩
      · left
        rw [mkdirStep_frozen src rep s d0 (err_isSome_of_ne herr)]
        exact herr
      · cases herr2 : (mkdirStep src rep s d0).err with
        | some e =>
          exact Or.inl (fun h => Option.noConfusion h)
        | none =>
          right
          refine ⟨rfl, mkdirStep_pres_some src rep s d0 sf _ hsfe, ?_⟩
          rcases mkdirStep_getEntry_cases src rep s d0 (mirrorPath src rep sf) with h | h
          · rw [h]
            exact hrfe
          · exact Or.inr h
    · intro s sf2 hsf2 hsfne hs
      rcases hs with herr | ⟨hok2, hsfe2, hrfe2⟩
      · left
        rw [copyStep_frozen fp d0 _ s sf2 (err_isSome_of_ne herr)]
        exact herr
      · obtain ⟨-, ht1, ht2⟩ := htgen d0 sf2 hd0 hsf2
        rcases copyStep_cases fp d0 (replaceFirst d0 src rep) s sf2 with h | h | h
        · rw [h]
          exact Or.inr ⟨hok2, hsfe2, hrfe2⟩
        · exact Or.inl h.2.2
        · obtain ⟨-, c2, -, -, heq⟩ := h
          right
          rw [heq]
          refine ⟨rfl, ?_, ?_⟩
          · show getEntry (setEntry s.fs _ _) sf = _
            rw [getEntry_setEntry_ne _ _ _ _ ht1]
            exact hsfe2
          · show getEntry (setEntry s.fs _ _) (mirrorPath src rep sf) =
                  getEntry fs0 (mirrorPath src rep sf) ∨
                getEntry (setEntry s.fs _ _) (mirrorPath src rep sf) = some Entry.dir
            rw [getEntry_setEntry_ne _ _ _ _ (ht2 hsfne)]
            exact hrfe2
    · intro s hs
      rcases hs with herr | ⟨hok2, hsfe2, hrfe2⟩
      · left
        rw [copyStep_frozen fp d0 _ s sf (err_isSome_of_ne herr)]
        exact herr
      · rcases hrfe2 with hrf0 | hdir
        · cases hfs0rf : getEntry fs0 (mirrorPath src rep sf) with
          | none =>
            have hmiss : ¬ existsPath s.fs (targetOf d0 (replaceFirst d0 src rep) sf) := by
              rw [htarget]
              unfold existsPath
              rw [hrf0, hfs0rf]
              exact fun h => h rfl
            have heq := copyStep_missing fp d0 (replaceFirst d0 src rep) s sf c
              hok2 hmiss hsfe2
            rw [htarget] at heq
            rw [heq]
            right
            refine ⟨?_, c, ?_, rfl, Or.inr ⟨rfl, ?_⟩⟩
            · show getEntry (setEntry s.fs _ _) sf = _
              rw [getEntry_setEntry_ne _ _ _ _ hsf_ne_rf]
              exact hsfe2
            · exact getEntry_setEntry_self s.fs _ _
            · exact List.mem_append_right _ (List.mem_singleton.mpr rfl)
          | some e =>
            cases e with
            | dir =>
              have hrfdir : getEntry s.fs (targetOf d0 (replaceFirst d0 src rep) sf) =
                  some Entry.dir := by
                rw [htarget, hrf0, hfs0rf]
              rw [copyStep_rf_dir fp d0 (replaceFirst d0 src rep) s sf c
                hok2 hsfe2 hrfdir]
              left
              exact fun h => Option.noConfusion h
            | file c' =>
              have hrff : getEntry s.fs (targetOf d0 (replaceFirst d0 src rep) sf) =
                  some (Entry.file c') := by
                rw [htarget, hrf0, hfs0rf]
              by_cases hdig : calculate_md5 fp c = calculate_md5 fp c'
              · rw [copyStep_skip fp d0 (replaceFirst d0 src rep) s sf c c'
                  hok2 hsfe2 hrff hdig]
                right
                refine ⟨hsfe2, c', ?_, hdig.symm, Or.inl rfl⟩
                rw [hrf0, hfs0rf]
              · have heq := copyStep_diff fp d0 (replaceFirst d0 src rep) s sf c c'
                  hok2 hsfe2 hrff hdig
                rw [htarget] at heq
                rw [heq]
                right
                refine ⟨?_, c, ?_, rfl, Or.inr ⟨rfl, ?_⟩⟩
                · show getEntry (setEntry s.fs _ _) sf = _
                  rw [getEntry_setEntry_ne _ _ _ _ hsf_ne_rf]
                  exact hsfe2
                · exact getEntry_setEntry_self s.fs _ _
                · exact List.mem_append_right _ (List.mem_singleton.mpr rfl)
        · have hrfdir : getEntry s.fs (targetOf d0 (replaceFirst d0 src rep) sf) =
              some Entry.dir := by
            rw [htarget]
            exact hdir
          rw [copyStep_rf_dir fp d0 (replaceFirst d0 src rep) s sf c hok2 hsfe2 hrfdir]
          left
          exact fun h => Option.noConfusion h
    · intro s sf2 hsf2 hs
      exact sync_file_propagation_Qcopy fp fs0 src rep d0 sf hsf c htarget htgen
        d0 hd0 sf2 hsf2 s hs
  case hAQ =>
    intro st d2 hd2 hQ
    rcases hQ with herr | hQr
    · left
      rw [dirStep_frozen fp src rep fs0 st d2 (err_isSome_of_ne herr)]
      exact herr
    · unfold dirStep
      refine @foldl_pres Path St
        (fun s => s.err ≠ none ∨
          (getEntry s.fs sf = some (Entry.file c) ∧
            ∃ c', getEntry s.fs (mirrorPath src rep sf) = some (Entry.file c') ∧
              calculate_md5 fp c' = calculate_md5 fp c ∧
              (getEntry fs0 (mirrorPath src rep sf) = some (Entry.file c') ∨
                (c' = c ∧ Event.copied sf (mirrorPath src rep sf) ∈ s.evs))))
        _ _ _ ?_ ?_
      · obtain ⟨hsfe, c', hrfe, hcalc, hdis⟩ := hQr
        rcases mkdirStep_cases src rep st d2 with h | h | h
        · rw [h]
          exact Or.inr ⟨hsfe, c', hrfe, hcalc, hdis⟩
        · exact Or.inl h.2.2
        · obtain ⟨-, -, fs2, hmk, heq⟩ := h
          right
          rw [heq]
          unfold makedirsE at hmk
          refine ⟨mkdirsGo_pres_some _ st.fs fs2 sf _ hsfe hmk, c',
            mkdirsGo_pres_some _ st.fs fs2 _ _ hrfe hmk, hcalc, ?_⟩
          rcases hdis with h2 | ⟨hcc, hev⟩
          · exact Or.inl h2
          · exact Or.inr ⟨hcc, List.mem_append_left _ hev⟩
      · intro sf2 hsf2 s hs
        exact sync_file_propagation_Qcopy fp fs0 src rep d0 sf hsf c htarget htgen
          d2 hd2 sf2 hsf2 s hs
  case hBQ =>
    intro fsA st d2 hd2 hQ
    have hu2 : isUnder rep d2 := ((walkDirs_mem fsA rep d2).mp hd2).2
    unfold pruneDir
    refine @foldl_pres Path St
      (fun s => s.err ≠ none ∨
        (getEntry s.fs sf = some (Entry.file c) ∧
          ∃ c', getEntry s.fs (mirrorPath src rep sf) = some (Entry.file c') ∧
            calculate_md5 fp c' = calculate_md5 fp c ∧
            (getEntry fs0 (mirrorPath src rep sf) = some (Entry.file c') ∨
              (c' = c ∧ Event.copied sf (mirrorPath src rep sf) ∈ s.evs))))
      _ _ _ hQ ?_
    intro rf2 hrf2 s hs
    have hb : rep <+: rf2 := rep_prefix_childFile fsA rep d2 rf2 hu2 hrf2
    rcases hs with herr | ⟨hsfe, c', hrfe, hcalc, hdis⟩
    · left
      rw [pruneStep_frozen src rep s rf2 (err_isSome_of_ne herr)]
      exact herr
    · have hb_ne_sf : sf ≠ rf2 := fun h => hsf_nc.1 (h ▸ hb)
      rcases pruneStep_cases src rep s rf2 with h | h | h
      · rw [h]
        exact Or.inr ⟨hsfe, c', hrfe, hcalc, hdis⟩
      · exact Or.inl h.2.2
      · obtain ⟨-, hmiss, c2, -, heq⟩ := h
        by_cases hbrf : rf2 = mirrorPath src rep sf
        · exfalso
          apply hmiss
          rw [hbrf, mirrorPath_inverse src rep sf hsrc_sf]
          unfold existsPath
          rw [hsfe]
          exact fun h => Option.noConfusion h
        · right
          rw [heq]
          refine ⟨?_, c', ?_, hcalc, ?_⟩
          · show getEntry (removeEntry s.fs rf2) sf = _
            rw [getEntry_removeEntry_ne s.fs rf2 sf hb_ne_sf]
            exact hsfe
          · show getEntry (removeEntry s.fs rf2) (mirrorPath src rep sf) = _
            rw [getEntry_removeEntry_ne s.fs rf2 _ (fun h => hbrf h.symm)]
            exact hrfe
          · rcases hdis with h2 | ⟨hcc, hev⟩
            · exact Or.inl h2
            · exact Or.inr ⟨hcc, List.mem_append_left _ hev⟩
  case h0 =>
    exact Or.inr ⟨rfl, hc, Or.inl rfl⟩

/-- The directory half of convergence: a listed source directory whose
mirrored path is not initially occupied by a replica-side file (the spec's
type-mismatch edge case, declared undefined behaviour) ends up as a
directory in the replica, unless the run aborts on an uncaught exception. -/
theorem sync_dir_propagation (fp : List Nat → List Nat) (fs0 : Fs) (src rep : Path)
    (hnd : (fs0.map Prod.fst).Nodup)
    (d0 : Path) (hd0 : d0 ∈ walkDirs fs0 src)
    (hmm0 : getEntry fs0 (mirrorPath src rep d0) = none ∨
      getEntry fs0 (mirrorPath src rep d0) = some Entry.dir) :
    (sync_folders fp fs0 src rep).err ≠ none ∨
    getEntry (sync_folders fp fs0 src rep).fs (mirrorPath src rep d0) =
      some Entry.dir := by
  have hpre0 : src <+: d0 := isUnder_pre src d0 ((walkDirs_mem fs0 src d0).mp hd0).2
  have hmd : replaceFirst d0 src rep = mirrorPath src rep d0 :=
    mirrorPath_eq_replaceFirst src rep d0 hpre0
  have hne_copy : ∀ d2 sf2, d2 ∈ walkDirs fs0 src → sf2 ∈ childFiles fs0 d2 →
      targetOf d2 (replaceFirst d2 src rep) sf2 ≠ mirrorPath src rep d0 := by
    intro d2 sf2 hd2 hsf2 h
    have hpre2 : src <+: d2 :=
      isUnder_pre src d2 ((walkDirs_mem fs0 src d2).mp hd2).2
    have hsfp2 : d2 ++ ['/'] <+: sf2 := ((childFiles_mem fs0 d2 sf2).mp hsf2).2.1
    rw [targetOf_mirror src rep d2 sf2 hpre2 hsfp2] at h
    have hsrc2 : src <+: sf2 :=
      hpre2.trans ((List.prefix_append d2 ['/']).trans hsfp2)
    have heq := mirrorPath_inj src rep sf2 d0 hsrc2 hpre0 h
    obtain ⟨c, hcs⟩ := childFiles_entry fs0 d2 sf2 hnd hsf2
    have hds : getEntry fs0 d0 = some Entry.dir :=
      mem_getEntry_of_nodup fs0 d0 _ hnd ((walkDirs_mem fs0 src d0).mp hd0).1
    rw [heq, hds] at hcs
    exact Entry.noConfusion (Option.some.inj hcs)
  have hQcp : ∀ d2, d2 ∈ walkDirs fs0 src → ∀ sf2, sf2 ∈ childFiles fs0 d2 →
      ∀ s : St,
      (s.err ≠ none ∨ getEntry s.fs (mirrorPath src rep d0) = some Entry.dir) →
      ((copyStep fp d2 (replaceFirst d2 src rep) s sf2).err ≠ none ∨
        getEntry (copyStep fp d2 (replaceFirst d2 src rep) s sf2).fs
          (mirrorPath src rep d0) = some Entry.dir) := by
    intro d2 hd2 sf2 hsf2 s hs
    rcases hs with herr | hdir
    · left
      rw [copyStep_frozen fp d2 _ s sf2 (err_isSome_of_ne herr)]
      exact herr
    · rcases copyStep_cases fp d2 (replaceFirst d2 src rep) s sf2 with h | h | h
      · rw [h]
        exact Or.inr hdir
      · exact Or.inl h.2.2
      · obtain ⟨-, c2, -, -, heq⟩ := h
        right
        rw [heq]
        show getEntry (setEntry s.fs _ _) (mirrorPath src rep d0) = _
        rw [getEntry_setEntry_ne _ _ _ _ (fun hh => hne_copy d2 sf2 hd2 hsf2 hh.symm)]
        exact hdir
  have hQmk : ∀ d2 (s : St),
      (s.err ≠ none ∨ getEntry s.fs (mirrorPath src rep d0) = some Entry.dir) →
      ((mkdirStep src rep s d2).err ≠ none ∨
        getEntry (mkdirStep src rep s d2).fs (mirrorPath src rep d0) =
          some Entry.dir) := by
    intro d2 s hs
    rcases hs with herr | hdir
    · left
      rw [mkdirStep_frozen src rep s d2 (err_isSome_of_ne herr)]
      exact herr
    · rcases mkdirStep_getEntry_cases src rep s d2 (mirrorPath src rep d0) with h | h
      · right
        rw [h]
        exact hdir
      · exact Or.inr h
  apply sync_reach fp fs0 src rep
    (fun st => st.err ≠ none ∨ getEntry st.fs (mirrorPath src rep d0) = none ∨
      getEntry st.fs (mirrorPath src rep d0) = some Entry.dir)
    (fun st => st.err ≠ none ∨
      getEntry st.fs (mirrorPath src rep d0) = some Entry.dir)
    d0 hd0
  case hAP =>
    intro st d2 hd2 hne hP
    rcases hP with herr | hrest
    · left
      rw [dirStep_frozen fp src rep fs0 st d2 (err_isSome_of_ne herr)]
      exact herr
    · unfold dirStep
      refine @foldl_pres Path St
        (fun s => s.err ≠ none ∨ getEntry s.fs (mirrorPath src rep d0) = none ∨
          getEntry s.fs (mirrorPath src rep d0) = some Entry.dir)
        _ _ _ ?_ ?_
      · show (mkdirStep src rep st d2).err ≠ none ∨
          getEntry (mkdirStep src rep st d2).fs (mirrorPath src rep d0) = none ∨
          getEntry (mkdirStep src rep st d2).fs (mirrorPath src rep d0) =
            some Entry.dir
        rcases mkdirStep_getEntry_cases src rep st d2 (mirrorPath src rep d0) with h | h
        · right
          rw [h]
          exact hrest
        · right
          right
          exact h
      · intro sf2 hsf2 s hs
        rcases hs with herr | hs2
        · left
          rw [copyStep_frozen fp d2 _ s sf2 (err_isSome_of_ne herr)]
          exact herr
        · rcases copyStep_cases fp d2 (replaceFirst d2 src rep) s sf2 with h | h | h
          · rw [h]
            exact Or.inr hs2
          · exact Or.inl h.2.2
          · obtain ⟨-, c2, -, -, heq⟩ := h
            right
            rw [heq]
            show getEntry (setEntry s.fs _ _) (mirrorPath src rep d0) = none ∨
              getEntry (setEntry s.fs _ _) (mirrorPath src rep d0) = some Entry.dir
            rw [getEntry_setEntry_ne _ _ _ _
              (fun hh => hne_copy d2 sf2 hd2 hsf2 hh.symm)]
            exact hs2
  case hest =>
    intro st hP
    unfold dirStep
    refine @foldl_pres Path St
      (fun s => s.err ≠ none ∨
        getEntry s.fs (mirrorPath src rep d0) = some Entry.dir)
      _ _ _ ?_ ?_
    · show (mkdirStep src rep st d0).err ≠ none ∨
        getEntry (mkdirStep src rep st d0).fs (mirrorPath src rep d0) =
          some Entry.dir
      rcases hP with herr | hnone | hdir
      · left
        rw [mkdirStep_frozen src rep st d0 (err_isSome_of_ne herr)]
        exact herr
      · cases hserr : st.err with
        | some e =>
          left
          rw [mkdirStep_frozen src rep st d0 (by rw [hserr]; rfl), hserr]
          exact fun h => Option.noConfusion h
        | none =>
          have hmiss : ¬ existsPath st.fs (replaceFirst d0 src rep) := by
            rw [hmd]
            unfold existsPath
            rw [hnone]
            exact fun h => h rfl
          cases hmk : makedirsE st.fs (replaceFirst d0 src rep) with
          | error e =>
            left
            have hcomp : mkdirStep src rep st d0 = ⟨st.fs, st.evs, some e⟩ := by
              simp [mkdirStep, hserr, hmiss, hmk]
            rw [hcomp]
            exact fun h => Option.noConfusion h
          | ok fs2 =>
            rw [mkdirStep_create_ok src rep st d0 fs2 hserr hmiss hmk]
            right
            show getEntry fs2 (mirrorPath src rep d0) = some Entry.dir
            rw [← hmd]
            exact makedirsE_target_dir st.fs fs2 _ hmk
      · have hex : existsPath st.fs (replaceFirst d0 src rep) := by
          rw [hmd]
          unfold existsPath
          rw [hdir]
          exact fun h => Option.noConfusion h
        rw [mkdirStep_noop src rep st d0 hex]
        exact Or.inr hdir
    · intro sf2 hsf2 s hs
      exact hQcp d0 hd0 sf2 hsf2 s hs
  case hAQ =>
    intro st d2 hd2 hQ
    rcases hQ with herr | hdir
    · left
      rw [dirStep_frozen fp src rep fs0 st d2 (err_isSome_of_ne herr)]
      exact herr
    · unfold dirStep
      refine @foldl_pres Path St
        (fun s => s.err ≠ none ∨
          getEntry s.fs (mirrorPath src rep d0) = some Entry.dir)
        _ _ _ ?_ ?_
      · exact hQmk d2 st (Or.inr hdir)
      · intro sf2 hsf2 s hs
        exact hQcp d2 hd2 sf2 hsf2 s hs
  case hBQ =>
    intro fsA st d2 hd2 hQ
    unfold pruneDir
    refine @foldl_pres Path St
      (fun s => s.err ≠ none ∨
        getEntry s.fs (mirrorPath src rep d0) = some Entry.dir)
      _ _ _ hQ ?_
    intro rf2 hrf2 s hs
    rcases hs with herr | hdir
    · left
      rw [pruneStep_frozen src rep s rf2 (err_isSome_of_ne herr)]
      exact herr
    · rcases pruneStep_cases src rep s rf2 with h | h | h
      · rw [h]
        exact Or.inr hdir
      · exact Or.inl h.2.2
      · obtain ⟨-, -, c2, hentry, heq⟩ := h
        by_cases hrq : rf2 = mirrorPath src rep d0
        · rw [hrq, hdir] at hentry
          exact Entry.noConfusion (Option.some.inj hentry)
        · right
          rw [heq]
          show getEntry (removeEntry s.fs rf2) (mirrorPath src rep d0) = _
          rw [getEntry_removeEntry_ne s.fs rf2 _ (fun hh => hrq hh.symm)]
          exact hdir
  case h0 =>
    show (⟨fs0, [], none⟩ : St).err ≠ none ∨
      getEntry fs0 (mirrorPath src rep d0) = none ∨
      getEntry fs0 (mirrorPath src rep d0) = some Entry.dir
    rcases hmm0 with h | h
    · exact Or.inr (Or.inl h)
    · exact Or.inr (Or.inr h)

/-- Phase A never disturbs a stale replica file (a replica-side file whose
inversely mirrored source path does not exist): its entry survives phase A
unchanged, and its source counterpart stays absent. -/
theorem phaseA_stale_pres (fp : List Nat → List Nat) (fs0 : Fs) (src rep : Path)
    (hd1 : ¬ src <+: rep) (hd2 : ¬ rep <+: src) (hnd : (fs0.map Prod.fst).Nodup)
    (rf : Path) (hrep_rf : rep <+: rf) (c0 : List Nat)
    (hc0 : getEntry fs0 rf = some (Entry.file c0))
    (hmiss : getEntry fs0 (replaceFirst rf rep src) = none) :
    getEntry (syncPhaseA fp fs0 src rep).fs rf = some (Entry.file c0) ∧
    getEntry (syncPhaseA fp fs0 src rep).fs (replaceFirst rf rep src) = none := by
  have hsp_src : src <+: replaceFirst rf rep src := by
    rw [mirrorPath_eq_replaceFirst rep src rf hrep_rf]
    exact mirrorPath_pre rep src rf
  unfold syncPhaseA
  refine @foldl_pres Path St
    (fun s => getEntry s.fs rf = some (Entry.file c0) ∧
      getEntry s.fs (replaceFirst rf rep src) = none)
    _ _ _ ⟨hc0, hmiss⟩ ?_
  intro d hd s hs
  have hu : isUnder src d := ((walkDirs_mem fs0 src d).mp hd).2
  have hpre : src <+: d := isUnder_pre src d hu
  have hrp : rep <+: replaceFirst d src rep := rep_prefix_replaceFirst src rep d hu
  refine dirStep_fsP
    (fun g => getEntry g rf = some (Entry.file c0) ∧
      getEntry g (replaceFirst rf rep src) = none)
    fp src rep fs0 s d ?_ ?_ hs
  · intro k hk g hkn hg
    have hcomp := makedirs_key_comparable rep (replaceFirst d src rep) k hrp hk
    have hkrf : k ≠ rf := by
      intro h
      rw [h, hg.1] at hkn
      exact Option.noConfusion hkn
    have hksp : k ≠ replaceFirst rf rep src := by
      intro h
      exact under_src_not_safe src rep k hd1 hd2 hcomp (h ▸ hsp_src)
    exact ⟨by rw [getEntry_setEntry_ne g k rf Entry.dir (Ne.symm hkrf)]; exact hg.1,
      by rw [getEntry_setEntry_ne g k _ Entry.dir (Ne.symm hksp)]; exact hg.2⟩
  · intro g c sf2 hsf2 hgrd hg
    have hsfp2 : d ++ ['/'] <+: sf2 := ((childFiles_mem fs0 d sf2).mp hsf2).2.1
    have htgt : targetOf d (replaceFirst d src rep) sf2 = mirrorPath src rep sf2 :=
      targetOf_mirror src rep d sf2 hpre hsfp2
    have hsrc2 : src <+: sf2 :=
      hpre.trans ((List.prefix_append d ['/']).trans hsfp2)
    have hkrf : targetOf d (replaceFirst d src rep) sf2 ≠ rf := by
      intro h
      obtain ⟨c3, hc3⟩ := childFiles_entry fs0 d sf2 hnd hsf2
      rw [htgt] at h
      have hsp2 : replaceFirst rf rep src = sf2 := by
        rw [← h]
        exact mirrorPath_inverse src rep sf2 hsrc2
      rw [hsp2, hc3] at hmiss
      exact Option.noConfusion hmiss
    have hksp : targetOf d (replaceFirst d src rep) sf2 ≠ replaceFirst rf rep src := by
      intro h
      have hrt : rep <+: targetOf d (replaceFirst d src rep) sf2 := by
        rw [htgt]
        exact mirrorPath_pre src rep sf2
      exact under_src_not_safe src rep _ hd1 hd2 (Or.inl hrt) (h ▸ hsp_src)
    exact ⟨by rw [getEntry_setEntry_ne g _ rf _ (Ne.symm hkrf)]; exact hg.1,
      by rw [getEntry_setEntry_ne g _ _ _ (Ne.symm hksp)]; exact hg.2⟩

/-- After a run, every walked source directory's mirrored replica path
exists (whatever entry it holds), unless the run aborted: phase A's
`os.makedirs` guard guarantees existence, and neither later copies nor the
prune phase can delete it (its inversely mirrored source path is the
directory itself, which always exists). -/
theorem sync_mirror_exists (fp : List Nat → List Nat) (fs0 : Fs) (src rep : Path)
    (hnd : (fs0.map Prod.fst).Nodup) (d0 : Path) (hd0 : d0 ∈ walkDirs fs0 src) :
    (sync_folders fp fs0 src rep).err ≠ none ∨
    existsPath (sync_folders fp fs0 src rep).fs (replaceFirst d0 src rep) := by
  have hpre0 : src <+: d0 := isUnder_pre src d0 ((walkDirs_mem fs0 src d0).mp hd0).2
  have hinv : replaceFirst (replaceFirst d0 src rep) rep src = d0 := by
    rw [mirrorPath_eq_replaceFirst src rep d0 hpre0]
    exact mirrorPath_inverse src rep d0 hpre0
  have hQc : ∀ (d2 sf2 : Path) (s : St),
      (s.err ≠ none ∨ (getEntry s.fs d0 = some Entry.dir ∧
        existsPath s.fs (replaceFirst d0 src rep))) →
      ((copyStep fp d2 (replaceFirst d2 src rep) s sf2).err ≠ none ∨
        (getEntry (copyStep fp d2 (replaceFirst d2 src rep) s sf2).fs d0 =
            some Entry.dir ∧
          existsPath (copyStep fp d2 (replaceFirst d2 src rep) s sf2).fs
            (replaceFirst d0 src rep))) := by
    intro d2 sf2 s hs
    rcases hs with herr | ⟨hdir, hex⟩
    · left
      rw [copyStep_frozen fp d2 _ s sf2 (err_isSome_of_ne herr)]
      exact herr
    · rcases copyStep_cases fp d2 (replaceFirst d2 src rep) s sf2 with h | h | h
      · rw [h]
        exact Or.inr ⟨hdir, hex⟩
      · exact Or.inl h.2.2
      · obtain ⟨-, c2, -, hgrd, heq⟩ := h
        have hne_td : targetOf d2 (replaceFirst d2 src rep) sf2 ≠ d0 := by
          intro hh
          apply hgrd
          rw [hh]
          exact hdir
        right
        rw [heq]
        constructor
        · show getEntry (setEntry s.fs _ _) d0 = some Entry.dir
          rw [getEntry_setEntry_ne _ _ _ _ (fun hh => hne_td hh.symm)]
          exact hdir
        · exact existsPath_setEntry s.fs _ _ _ hex
  have hQ : (sync_folders fp fs0 src rep).err ≠ none ∨
      (getEntry (sync_folders fp fs0 src rep).fs d0 = some Entry.dir ∧
        existsPath (sync_folders fp fs0 src rep).fs (replaceFirst d0 src rep)) := by
    apply sync_reach fp fs0 src rep
      (fun st => st.err ≠ none ∨ getEntry st.fs d0 = some Entry.dir)
      (fun st => st.err ≠ none ∨ (getEntry st.fs d0 = some Entry.dir ∧
        existsPath st.fs (replaceFirst d0 src rep)))
      d0 hd0
    case hAP =>
      intro st d2 hd2 hne hP
      rcases hP with herr | hdir
      · left
        rw [dirStep_frozen fp src rep fs0 st d2 (err_isSome_of_ne herr)]
        exact herr
      · exact Or.inr (dirStep_dir_pres fp src rep fs0 st d2 d0 hdir)
    case hest =>
      intro st hP
      unfold dirStep
      refine @foldl_pres Path St
        (fun s => s.err ≠ none ∨ (getEntry s.fs d0 = some Entry.dir ∧
          existsPath s.fs (replaceFirst d0 src rep)))
        _ _ _ ?_ ?_
      · show (mkdirStep src rep st d0).err ≠ none ∨
          (getEntry (mkdirStep src rep st d0).fs d0 = some Entry.dir ∧
            existsPath (mkdirStep src rep st d0).fs (replaceFirst d0 src rep))
        rcases hP with herr | hdir
        · left
          rw [mkdirStep_frozen src rep st d0 (err_isSome_of_ne herr)]
          exact herr
        · by_cases hex : existsPath st.fs (replaceFirst d0 src rep)
          · rw [mkdirStep_noop src rep st d0 hex]
            exact Or.inr ⟨hdir, hex⟩
          · cases hserr : st.err with
            | some e =>
              left
              rw [mkdirStep_frozen src rep st d0 (by rw [hserr]; rfl), hserr]
              exact fun h => Option.noConfusion h
            | none =>
              cases hmk : makedirsE st.fs (replaceFirst d0 src rep) with
              | error e =>
                left
                have hcomp : mkdirStep src rep st d0 = ⟨st.fs, st.evs, some e⟩ := by
                  simp [mkdirStep, hserr, hex, hmk]
                rw [hcomp]
                exact fun h => Option.noConfusion h
              | ok fs2 =>
                have hck := mkdirStep_create_ok src rep st d0 fs2 hserr hex hmk
                have hd0dir := mkdirStep_pres_some src rep st d0 d0 Entry.dir hdir
                rw [hck] at hd0dir
                rw [hck]
                refine Or.inr ⟨hd0dir, ?_⟩
                show existsPath fs2 (replaceFirst d0 src rep)
                unfold existsPath
                rw [makedirsE_target_dir st.fs fs2 _ hmk]
                exact fun h => Option.noConfusion h
      · intro sf2 hsf2 s hs
        exact hQc d0 sf2 s hs
    case hAQ =>
      intro st d2 hd2 hQ2
      rcases hQ2 with herr | ⟨hdir, hex⟩
      · left
        rw [dirStep_frozen fp src rep fs0 st d2 (err_isSome_of_ne herr)]
        exact herr
      · unfold dirStep
        refine @foldl_pres Path St
          (fun s => s.err ≠ none ∨ (getEntry s.fs d0 = some Entry.dir ∧
            existsPath s.fs (replaceFirst d0 src rep)))
          _ _ _ ?_ ?_
        · refine Or.inr ⟨mkdirStep_pres_some src rep st d2 d0 Entry.dir hdir, ?_⟩
          rcases mkdirStep_getEntry_cases src rep st d2 (replaceFirst d0 src rep)
            with h | h
          · show existsPath (mkdirStep src rep st d2).fs (replaceFirst d0 src rep)
            unfold existsPath at hex ⊢
            rw [h]
            exact hex
          · show existsPath (mkdirStep src rep st d2).fs (replaceFirst d0 src rep)
            unfold existsPath
            rw [h]
            exact fun hh => Option.noConfusion hh
        · intro sf2 hsf2 s hs
          exact hQc d2 sf2 s hs
    case hBQ =>
      intro fsA st d2 hd2 hQ2
      unfold pruneDir
      refine @foldl_pres Path St
        (fun s => s.err ≠ none ∨ (getEntry s.fs d0 = some Entry.dir ∧
          existsPath s.fs (replaceFirst d0 src rep)))
        _ _ _ hQ2 ?_
      intro rf2 hrf2 s hs
      rcases hs with herr | ⟨hdir, hex⟩
      · left
        rw [pruneStep_frozen src rep s rf2 (err_isSome_of_ne herr)]
        exact herr
      · rcases pruneStep_cases src rep s rf2 with h | h | h
        · rw [h]
          exact Or.inr ⟨hdir, hex⟩
        · exact Or.inl h.2.2
        · obtain ⟨-, hmiss2, c2, hent, heq⟩ := h
          have hne_t : rf2 ≠ replaceFirst d0 src rep := by
            intro hh
            apply hmiss2
            rw [hh, hinv]
            unfold existsPath
            rw [hdir]
            exact fun h2 => Option.noConfusion h2
          have hne_d : rf2 ≠ d0 := by
            intro hh
            rw [hh, hdir] at hent
            exact Entry.noConfusion (Option.some.inj hent)
          right
          rw [heq]
          refine ⟨?_, ?_⟩
          · show getEntry (removeEntry s.fs rf2) d0 = some Entry.dir
            rw [getEntry_removeEntry_ne s.fs rf2 d0 (Ne.symm hne_d)]
            exact hdir
          · exact existsPath_removeEntry_ne s.fs rf2 _ (Ne.symm hne_t) hex
    case h0 =>
      exact Or.inr (mem_getEntry_of_nodup fs0 d0 _ hnd
        ((walkDirs_mem fs0 src d0).mp hd0).1)
  rcases hQ with herr | ⟨-, hex⟩
  · exact Or.inl herr
  · exact Or.inr hex

/-- The prune phase only removes entries, so the final filesystem is a
sublist of the phase-A result. -/
theorem sync_fs_sub_phaseA (fp : List Nat → List Nat) (fs0 : Fs) (src rep : Path) :
    List.Sublist (sync_folders fp fs0 src rep).fs (syncPhaseA fp fs0 src rep).fs := by
  unfold sync_folders
  refine @foldl_pres Path St
    (fun st => List.Sublist st.fs (syncPhaseA fp fs0 src rep).fs) _ _ _
    (List.Sublist.refl _) ?_
  intro d hd st hst
  unfold pruneDir
  refine @foldl_pres Path St
    (fun s => List.Sublist s.fs (syncPhaseA fp fs0 src rep).fs) _ _ _ hst ?_
  intro rf2 hrf2 s hs
  rcases pruneStep_cases src rep s rf2 with h | h | h
  · rw [h]
    exact hs
  · show List.Sublist (pruneStep src rep s rf2).fs _
    rw [h.1]
    exact hs
  · obtain ⟨-, -, c2, -, heq⟩ := h
    show List.Sublist (pruneStep src rep s rf2).fs _
    rw [heq]
    exact (removeEntry_sublist s.fs rf2).trans hs

/-- Every replica file listed by the prune walk is resolved by the run: the
run aborts, or the file is gone, or its inversely mirrored source path
exists at the end. -/
theorem sync_walked_file_resolved (fp : List Nat → List Nat) (fs0 : Fs)
    (src rep : Path) (hd1 : ¬ src <+: rep) (hd2 : ¬ rep <+: src)
    (dp rf : Path) (hdp : dp ∈ walkDirs (syncPhaseA fp fs0 src rep).fs rep)
    (hrf : rf ∈ childFiles (syncPhaseA fp fs0 src rep).fs dp) :
    (sync_folders fp fs0 src rep).err ≠ none ∨
    getEntry (sync_folders fp fs0 src rep).fs rf = none ∨
    existsPath (sync_folders fp fs0 src rep).fs (replaceFirst rf rep src) := by
  have hu_dp : isUnder rep dp := ((walkDirs_mem _ rep dp).mp hdp).2
  have hrep_rf : rep <+: rf := rep_prefix_childFile _ rep dp rf hu_dp hrf
  have hsp_src : src <+: replaceFirst rf rep src := by
    rw [mirrorPath_eq_replaceFirst rep src rf hrep_rf]
    exact mirrorPath_pre rep src rf
  have hQps : ∀ (fsA : Fs) (dw : Path), dw ∈ walkDirs fsA rep →
      ∀ (rf2 : Path), rf2 ∈ childFiles fsA dw → ∀ (s : St),
      (s.err ≠ none ∨ getEntry s.fs rf = none ∨
        existsPath s.fs (replaceFirst rf rep src)) →
      ((pruneStep src rep s rf2).err ≠ none ∨
        getEntry (pruneStep src rep s rf2).fs rf = none ∨
        existsPath (pruneStep src rep s rf2).fs (replaceFirst rf rep src)) := by
    intro fsA dw hdw rf2 hrf2 s hs
    rcases hs with herr | hs2
    · left
      rw [pruneStep_frozen src rep s rf2 (err_isSome_of_ne herr)]
      exact herr
    · rcases pruneStep_cases src rep s rf2 with h | h | h
      · rw [h]
        exact Or.inr hs2
      · exact Or.inl h.2.2
      · obtain ⟨-, -, c2, -, heq⟩ := h
        have hrep2 : rep <+: rf2 :=
          rep_prefix_childFile fsA rep dw rf2 ((walkDirs_mem fsA rep dw).mp hdw).2 hrf2
        have hne_sp : replaceFirst rf rep src ≠ rf2 := by
          intro hh
          exact under_src_not_safe src rep rf2 hd1 hd2 (Or.inl hrep2) (hh ▸ hsp_src)
        right
        rw [heq]
        rcases hs2 with hnone | hex
        · exact Or.inl (getEntry_removeEntry_none s.fs rf2 rf hnone)
        · exact Or.inr (existsPath_removeEntry_ne s.fs rf2 _ hne_sp hex)
  apply sync_prune_reach fp fs0 src rep
    (fun st => True)
    (fun st => st.err ≠ none ∨ getEntry st.fs rf = none ∨
      existsPath st.fs (replaceFirst rf rep src))
    dp hdp
  case hP0 =>
    trivial
  case hPp =>
    intro st d hd hne h
    trivial
  case hest =>
    intro st h2
    refine pruneDir_reach
      (fun s => True)
      (fun s => s.err ≠ none ∨ getEntry s.fs rf = none ∨
        existsPath s.fs (replaceFirst rf rep src))
      src rep _ dp rf hrf ?_ ?_ ?_ st trivial
    · intro s rf2 hrf2 hne h3
      trivial
    · intro s h3
      cases hserr : s.err with
      | some e =>
        left
        rw [pruneStep_frozen src rep s rf (by rw [hserr]; rfl), hserr]
        exact fun h4 => Option.noConfusion h4
      | none =>
        by_cases hex : existsPath s.fs (replaceFirst rf rep src)
        · rw [pruneStep_noop src rep s rf hex]
          exact Or.inr (Or.inr hex)
        · cases hent : getEntry s.fs rf with
          | none =>
            have hcomp : pruneStep src rep s rf =
                ⟨s.fs, s.evs, some "FileNotFoundError"⟩ := by
              have hrm : removeE s.fs rf = Except.error "FileNotFoundError" := by
                unfold removeE
                rw [hent]
              simp [pruneStep, hserr, hex, hrm]
            rw [hcomp]
            left
            exact fun h4 => Option.noConfusion h4
          | some e =>
            cases e with
            | dir =>
              have hcomp : pruneStep src rep s rf =
                  ⟨s.fs, s.evs, some "IsADirectoryError"⟩ := by
                have hrm : removeE s.fs rf = Except.error "IsADirectoryError" := by
                  unfold removeE
                  rw [hent]
                simp [pruneStep, hserr, hex, hrm]
              rw [hcomp]
              left
              exact fun h4 => Option.noConfusion h4
            | file c =>
              rw [pruneStep_remove src rep s rf c hserr hex hent]
              exact Or.inr (Or.inl (getEntry_removeEntry_self s.fs rf))
    · intro s rf2 hrf2 h3
      exact hQps _ dp hdp rf2 hrf2 s h3
  case hQp =>
    intro st d hd hQ2
    unfold pruneDir
    refine @foldl_pres Path St
      (fun s => s.err ≠ none ∨ getEntry s.fs rf = none ∨
        existsPath s.fs (replaceFirst rf rep src))
      _ _ _ hQ2 ?_
    intro rf2 hrf2 s hs
    exact hQps _ d hd rf2 hrf2 s hs

/-- A run over a filesystem that is already in sync — every walked source
directory's mirror exists, every walked source file's mirror holds a
digest-equal file, every walked replica file's source counterpart exists —
is a complete no-op: same filesystem, no events, no error. -/
theorem sync_noop_of_stable (fp : List Nat → List Nat) (fs1 : Fs) (src rep : Path)
    (hmk : ∀ d, d ∈ walkDirs fs1 src → existsPath fs1 (replaceFirst d src rep))
    (hcp : ∀ d sf, d ∈ walkDirs fs1 src → sf ∈ childFiles fs1 d →
      ∃ c c', getEntry fs1 sf = some (Entry.file c) ∧
        getEntry fs1 (targetOf d (replaceFirst d src rep) sf) =
          some (Entry.file c') ∧
        calculate_md5 fp c = calculate_md5 fp c')
    (hpr : ∀ d rf, d ∈ walkDirs fs1 rep → rf ∈ childFiles fs1 d →
      existsPath fs1 (replaceFirst rf rep src)) :
    sync_folders fp fs1 src rep = ⟨fs1, [], none⟩ := by
  have hA : syncPhaseA fp fs1 src rep = ⟨fs1, [], none⟩ := by
    unfold syncPhaseA
    refine @foldl_pres Path St (fun st => st = ⟨fs1, [], none⟩) _ _ _ rfl ?_
    intro d hd st hst
    rw [hst]
    show dirStep fp src rep fs1 ⟨fs1, [], none⟩ d = ⟨fs1, [], none⟩
    unfold dirStep
    rw [mkdirStep_noop src rep ⟨fs1, [], none⟩ d (hmk d hd)]
    refine @foldl_pres Path St (fun st2 => st2 = ⟨fs1, [], none⟩) _ _ _ rfl ?_
    intro sf hsf st2 hst2
    rw [hst2]
    obtain ⟨c, c', hce, hte, hdig⟩ := hcp d sf hd hsf
    exact copyStep_skip fp d (replaceFirst d src rep) ⟨fs1, [], none⟩ sf c c'
      rfl hce hte hdig
  unfold sync_folders
  rw [hA]
  show (walkDirs fs1 rep).foldl (pruneDir src rep fs1) ⟨fs1, [], none⟩ =
    ⟨fs1, [], none⟩
  refine @foldl_pres Path St (fun st => st = ⟨fs1, [], none⟩) _ _ _ rfl ?_
  intro d hd st hst
  rw [hst]
  show pruneDir src rep fs1 ⟨fs1, [], none⟩ d = ⟨fs1, [], none⟩
  unfold pruneDir
  refine @foldl_pres Path St (fun st2 => st2 = ⟨fs1, [], none⟩) _ _ _ rfl ?_
  intro rf hrf st2 hst2
  rw [hst2]
  exact pruneStep_noop src rep ⟨fs1, [], none⟩ rf (hpr d rf hd hrf)

/-! ## Claim theorems -/

/-- C5: for every file of the source walk, `sync_folders`' per-file action
`copyStep` copies the source file to its mirrored replica path (overwriting)
exactly when the replica file does not exist or the two digests differ,
emitting exactly one "file copied" event per copy; when the digests match it
performs no operation and emits no event. -/
theorem copy_condition_iff (fp : List Nat → List Nat) (d rp : Path) (st : St)
    (sf : Path) (c : List Nat) (hok : st.err = none)
    (hsf : getEntry st.fs sf = some (Entry.file c)) :
    (getEntry st.fs (targetOf d rp sf) = none →
      copyStep fp d rp st sf =
        ⟨setEntry st.fs (targetOf d rp sf) (Entry.file c),
          st.evs ++ [Event.copied sf (targetOf d rp sf)], none⟩) ∧
    ∀ c', getEntry st.fs (targetOf d rp sf) = some (Entry.file c') →
      (calculate_md5 fp c ≠ calculate_md5 fp c' →
        copyStep fp d rp st sf =
          ⟨setEntry st.fs (targetOf d rp sf) (Entry.file c),
            st.evs ++ [Event.copied sf (targetOf d rp sf)], none⟩) ∧
      (calculate_md5 fp c = calculate_md5 fp c' → copyStep fp d rp st sf = st) := by
  constructor
  · intro hmiss
    exact copyStep_missing fp d rp st sf c hok (fun hex => hex hmiss) hsf
  · intro c' hrf
    exact ⟨fun hne => copyStep_diff fp d rp st sf c c' hok hsf hrf hne,
           fun heq => copyStep_skip fp d rp st sf c c' hok hsf hrf heq⟩

theorem copy_condition_iff_witness :
    copyStep wid wS wR wSt6 wSA =
      ⟨setEntry wFs6 (targetOf wS wR wSA) (Entry.file [1]),
        [Event.copied wSA (targetOf wS wR wSA)], none⟩ :=
  ((copy_condition_iff wid wS wR wSt6 wSA [1] rfl (by decide)).2 [2]
    (by decide)).1 (by decide)

/-- C7: every path yielded by walking a root starts with that root, so the
single textual first-occurrence replacement performed by
`path.replace(root, other, 1)` (lines 81 and 96) is exactly the prefix
substitution `other ++ (path − root)`; this covers both the forward mapping
of the propagation phase and the inverse mapping of the prune phase, since
the theorem holds for both root/other orientations. -/
theorem mirrored_path_is_prefix_substitution (fs : Fs) (root other p : Path)
    (h : p ∈ walkDirs fs root ∨ ∃ d, d ∈ walkDirs fs root ∧ p ∈ childFiles fs d) :
    replaceFirst p root other = other ++ p.drop root.length := by
  have hpre : root <+: p := by
    rcases h with h | ⟨d, hd, hp⟩
    · exact isUnder_pre root p ((walkDirs_mem fs root p).mp h).2
    · have hu := ((walkDirs_mem fs root d).mp hd).2
      exact (List.prefix_append root ['/']).trans (childFiles_under fs d p root hu hp)
  exact replaceFirst_of_pre p root other hpre

theorem mirrored_path_is_prefix_substitution_witness :
    replaceFirst wSA wS wR = wR ++ wSA.drop wS.length :=
  mirrored_path_is_prefix_substitution wFs1 wS wR wSA
    (Or.inr ⟨wS, by decide, by decide⟩)

/-- C8: `calculate_md5` is deterministic — identical byte content (two files,
or two reads of one file) yields an identical digest — and it reads the file
in chunks of at most 4096 bytes, the digest of the accumulated chunk stream
being the digest of the whole content. -/
theorem calculate_md5_deterministic_chunked (fp : List Nat → List Nat)
    (c1 c2 : List Nat) (h : c1 = c2) :
    calculate_md5 fp c1 = calculate_md5 fp c2 ∧
    calculate_md5 fp c1 = fp c1 ∧
    ∀ ch, ch ∈ readChunks c1 → ch.length ≤ 4096 := by
  refine ⟨by rw [h], ?_, ?_⟩
  · unfold calculate_md5
    rw [hashUpdates_readChunks]
  · intro ch hch
    unfold readChunks at hch
    exact readChunksF_bounded c1.length c1 (Nat.le_refl _) ch hch

theorem calculate_md5_deterministic_chunked_witness :
    calculate_md5 wid [1, 2] = calculate_md5 wid [1, 2] ∧
    calculate_md5 wid [1, 2] = wid [1, 2] :=
  ⟨(calculate_md5_deterministic_chunked wid [1, 2] [1, 2] rfl).1,
   (calculate_md5_deterministic_chunked wid [1, 2] [1, 2] rfl).2.1⟩

/-- C10: the prune phase deletes a replica file only when its inversely
mirrored source path does not exist: whenever the mirrored source path exists
at deletion-check time, `pruneStep` leaves the state completely unchanged
(the delete branch is unreachable). -/
theorem prune_safety (src rep : Path) (st : St) (rf : Path)
    (hex : existsPath st.fs (replaceFirst rf rep src)) :
    pruneStep src rep st rf = st :=
  pruneStep_noop src rep st rf hex

theorem prune_safety_witness : pruneStep wS wR wSt6 wRA = wSt6 :=
  prune_safety wS wR wSt6 wRA (by decide)

/-- C3 (counterexample): `sync_folders` contains no exception handling, so a
per-file I/O failure escapes.  Concretely, with source files `/s/a`, `/s/b`
and a directory at the mirrored path `/r/a`, opening `/r/a` for hashing
raises `IsADirectoryError`; the exception escapes `sync_folders` (`err` is
set), no event of any kind is logged for it, and the remaining file `/s/b`
is not copied — contradicting the claim that every per-file I/O failure is
converted to a logged event with the run continuing. -/
theorem error_escapes_counterexample :
    (sync_folders wid cFs3 wS wR).err = some "IsADirectoryError" ∧
    (sync_folders wid cFs3 wS wR).evs = [] ∧
    getEntry (sync_folders wid cFs3 wS wR).fs wRB = none := by
  decide

/-- C3 (amended): `sync_folders` performs no error handling: the first
uncaught per-file I/O failure propagates out of `sync_folders`, aborting the
run — no error event is logged, the failing entry is not skipped, and the
remaining files and directories are not processed.  Stated for the whole
family of contents of the two source files of the failing tree. -/
theorem error_aborts_run (c1 c2 : List Nat) :
    (sync_folders wid (fs3 c1 c2) wS wR).err = some "IsADirectoryError" ∧
    (sync_folders wid (fs3 c1 c2) wS wR).evs = [] ∧
    getEntry (sync_folders wid (fs3 c1 c2) wS wR).fs wRB = none :=
  ⟨rfl, rfl, rfl⟩

/-- C9: `sync_folders` never modifies the source tree.  Under the ambient
setup of the spec — the source and replica roots are two distinct directory
trees, neither nested in the other, and the replica root's parent chain
exists (the glossary's "two top-level directories") — every path under the
source root holds exactly the entry it held before the call, and every path
whose entry changed at all lies under the replica root (creations, copy
destinations and deletions all target replica-side paths). -/
theorem source_tree_preserved (fp : List Nat → List Nat) (fs0 : Fs) (src rep : Path)
    (hd1 : ¬ src <+: rep) (hd2 : ¬ rep <+: src)
    (hanc : ∀ a, a ∈ ancestorsOf rep → existsPath fs0 a) :
    (∀ q, src <+: q → getEntry (sync_folders fp fs0 src rep).fs q = getEntry fs0 q) ∧
    (∀ q, getEntry (sync_folders fp fs0 src rep).fs q ≠ getEntry fs0 q → rep <+: q) := by
  constructor
  · intro q hq
    exact sync_source_frame fp fs0 src rep q hd1 hd2 hq
  · have hmain : ∀ q, ¬ rep <+: q →
        getEntry (sync_folders fp fs0 src rep).fs q = getEntry fs0 q := by
      apply sync_fs_safe2 fp fs0 src rep
        (fun g => ∀ q, ¬ rep <+: q → getEntry g q = getEntry fs0 q)
      · intro g k e hr hg q hq
        have hne : q ≠ k := fun h => hq (h ▸ hr)
        rw [getEntry_setEntry_ne g k q e hne]
        exact hg q hq
      · intro g k hk hnone hg q hq
        by_cases hqk : q = k
        · subst hqk
          exact absurd ((hg q hq).symm.trans hnone) (hanc q hk)
        · rw [getEntry_setEntry_ne g k q Entry.dir hqk]
          exact hg q hq
      · intro g k hr hg q hq
        have hne : q ≠ k := fun h => hq (h ▸ hr)
        rw [getEntry_removeEntry_ne g k q hne]
        exact hg q hq
      · intro q _
        rfl
    intro q hne
    by_contra hr
    exact hne (hmain q hr)

theorem source_tree_preserved_witness :
    getEntry (sync_folders wid wFs1 wS wR).fs wSA = getEntry wFs1 wSA :=
  (source_tree_preserved wid wFs1 wS wR (by decide) (by decide) (by decide)).1
    wSA (by decide)

/-- C6: change detection — if a listed source file's bytes differ from the
bytes currently stored at its mirrored replica path (so their digests
differ: the spec's fingerprint-as-equality-oracle reading, collision
probability treated as negligible), then a run of `sync_folders` that does
not abort on an I/O error recopies that file: it emits a copy event for it
and leaves the new content at the mirrored path. -/
theorem change_detection_recopies (fp : List Nat → List Nat) (fs0 : Fs)
    (src rep : Path) (hd1 : ¬ src <+: rep) (hd2 : ¬ rep <+: src)
    (hnd : (fs0.map Prod.fst).Nodup)
    (d0 sf : Path) (hd0 : d0 ∈ walkDirs fs0 src) (hsf : sf ∈ childFiles fs0 d0)
    (c c0 : List Nat) (hc : getEntry fs0 sf = some (Entry.file c))
    (hc0 : getEntry fs0 (mirrorPath src rep sf) = some (Entry.file c0))
    (hfp : calculate_md5 fp c0 ≠ calculate_md5 fp c) :
    (sync_folders fp fs0 src rep).err ≠ none ∨
    (Event.copied sf (mirrorPath src rep sf) ∈ (sync_folders fp fs0 src rep).evs ∧
      getEntry (sync_folders fp fs0 src rep).fs (mirrorPath src rep sf) =
        some (Entry.file c)) := by
  rcases sync_file_propagation fp fs0 src rep hd1 hd2 hnd d0 sf hd0 hsf c hc with
    herr | ⟨hsfe, c', hrfe, hcalc, hdis⟩
  · exact Or.inl herr
  · rcases hdis with h2 | ⟨hcc, hev⟩
    · exfalso
      rw [hc0] at h2
      have hcc0 : c0 = c' := by
        have h3 := Option.some.inj h2
        cases h3
        rfl
      exact hfp (by rw [hcc0]; exact hcalc)
    · subst hcc
      exact Or.inr ⟨hev, hrfe⟩

theorem change_detection_recopies_witness :
    Event.copied wSA wRA ∈ (sync_folders wid wFs6 wS wR).evs ∧
    getEntry (sync_folders wid wFs6 wS wR).fs wRA = some (Entry.file [1]) := by
  rcases change_detection_recopies wid wFs6 wS wR (by decide) (by decide)
    (by decide) wS wSA (by decide) (by decide) [1] [2] (by decide) (by decide)
    (by decide) with herr | hok
  · exact absurd (by decide : (sync_folders wid wFs6 wS wR).err = none) herr
  · exact hok

/-- C1: convergence — for a static source tree, after one completed run of
`sync_folders` (no uncaught exception), every directory of the source walk
has its mirrored path present as a directory in the replica, and every file
listed by the walk has its mirrored path holding a file with identical byte
content.  Ambient hypotheses, each taken from the spec itself: the two roots
are distinct non-nested trees, path keys are unique, the digest is an
equality oracle on contents (§3), and no mirrored directory path is
initially occupied by a replica-side file (the §4.2 type-mismatch edge case,
declared undefined behaviour). -/
theorem sync_convergence (fp : List Nat → List Nat) (fs0 : Fs) (src rep : Path)
    (hd1 : ¬ src <+: rep) (hd2 : ¬ rep <+: src)
    (hnd : (fs0.map Prod.fst).Nodup)
    (hinj : ∀ a b : List Nat, calculate_md5 fp a = calculate_md5 fp b → a = b)
    (hmm : ∀ d, d ∈ walkDirs fs0 src →
      getEntry fs0 (mirrorPath src rep d) = none ∨
      getEntry fs0 (mirrorPath src rep d) = some Entry.dir)
    (hok : (sync_folders fp fs0 src rep).err = none) :
    (∀ d, d ∈ walkDirs fs0 src →
      getEntry (sync_folders fp fs0 src rep).fs (mirrorPath src rep d) =
        some Entry.dir) ∧
    (∀ d sf c, d ∈ walkDirs fs0 src → sf ∈ childFiles fs0 d →
      getEntry fs0 sf = some (Entry.file c) →
      getEntry (sync_folders fp fs0 src rep).fs (mirrorPath src rep sf) =
        some (Entry.file c)) := by
  constructor
  · intro d hd
    rcases sync_dir_propagation fp fs0 src rep hnd d hd (hmm d hd) with herr | hdir
    · exact absurd hok herr
    · exact hdir
  · intro d sf c hd hsf hc
    rcases sync_file_propagation fp fs0 src rep hd1 hd2 hnd d sf hd hsf c hc with
      herr | ⟨-, c', hrfe, hcalc, hdis⟩
    · exact absurd hok herr
    · have hcc : c' = c := hinj c' c hcalc
      rw [hcc] at hrfe
      exact hrfe

theorem sync_convergence_witness :
    getEntry (sync_folders wid wFs1 wS wR).fs wR = some Entry.dir ∧
    getEntry (sync_folders wid wFs1 wS wR).fs wRA = some (Entry.file [1]) := by
  have h := sync_convergence wid wFs1 wS wR (by decide) (by decide) (by decide)
    (fun a b hab => by
      simpa [calculate_md5, wid, hashUpdates_readChunks] using hab)
    (by decide) (by decide)
  exact ⟨h.1 wS (by decide), h.2 wS wSA [1] (by decide) (by decide) (by decide)⟩

/-- C2 (counterexample): a replica directory with no source counterpart is
NOT pruned.  Source `/s` is empty and the replica holds the directory
`/r/d`; its inversely mirrored source path `/s/d` does not exist, the run
completes without an exception, yet `/r/d` still exists afterwards — the
prune loop iterates over `filenames` only (lines 94–99) and never removes
directories, contradicting the spec's "for every file/directory in
replica". -/
theorem prune_misses_directory_counterexample :
    getEntry cFs2 (replaceFirst wRD wR wS) = none ∧
    (sync_folders wid cFs2 wS wR).err = none ∧
    getEntry (sync_folders wid cFs2 wS wR).fs wRD = some Entry.dir := by
  decide

/-- C2 (amended): pruning holds for files only — every FILE listed by
walking the replica whose inversely mirrored source path does not exist is
removed by a completed run of `sync_folders` (with a "removed" event
logged); replica directories without a source counterpart are never
removed. -/
theorem sync_prune_removes (fp : List Nat → List Nat) (fs0 : Fs) (src rep : Path)
    (hd1 : ¬ src <+: rep) (hd2 : ¬ rep <+: src) (hnd : (fs0.map Prod.fst).Nodup)
    (dp rf : Path) (hdp : dp ∈ walkDirs fs0 rep) (hrf : rf ∈ childFiles fs0 dp)
    (hmiss : getEntry fs0 (replaceFirst rf rep src) = none) :
    (sync_folders fp fs0 src rep).err ≠ none ∨
    (getEntry (sync_folders fp fs0 src rep).fs rf = none ∧
      Event.removed rf ∈ (sync_folders fp fs0 src rep).evs) := by
  obtain ⟨c0, hc0⟩ := childFiles_entry fs0 dp rf hnd hrf
  have hu_dp : isUnder rep dp := ((walkDirs_mem fs0 rep dp).mp hdp).2
  have hrep_rf : rep <+: rf := rep_prefix_childFile fs0 rep dp rf hu_dp hrf
  have hA := phaseA_stale_pres fp fs0 src rep hd1 hd2 hnd rf hrep_rf c0 hc0 hmiss
  have hdir0 : getEntry fs0 dp = some Entry.dir :=
    mem_getEntry_of_nodup fs0 dp _ hnd ((walkDirs_mem fs0 rep dp).mp hdp).1
  have hdirA : getEntry (syncPhaseA fp fs0 src rep).fs dp = some Entry.dir := by
    unfold syncPhaseA
    refine @foldl_pres Path St (fun s => getEntry s.fs dp = some Entry.dir)
      _ _ _ hdir0 ?_
    intro d hd s hs
    exact dirStep_dir_pres fp src rep fs0 s d dp hs
  have hdpA : dp ∈ walkDirs (syncPhaseA fp fs0 src rep).fs rep :=
    (walkDirs_mem _ rep dp).mpr ⟨getEntry_mem _ dp _ hdirA, hu_dp⟩
  have hrfA : rf ∈ childFiles (syncPhaseA fp fs0 src rep).fs dp :=
    (childFiles_mem _ dp rf).mpr ⟨⟨c0, getEntry_mem _ rf _ hA.1⟩,
      ((childFiles_mem fs0 dp rf).mp hrf).2⟩
  have hPremove : ∀ (rf2 : Path), rf2 ≠ rf → ∀ (g : Fs) (c : List Nat),
      getEntry g rf2 = some (Entry.file c) →
      (getEntry g rf = some (Entry.file c0) ∧
        getEntry g (replaceFirst rf rep src) = none) →
      (getEntry (removeEntry g rf2) rf = some (Entry.file c0) ∧
        getEntry (removeEntry g rf2) (replaceFirst rf rep src) = none) := by
    intro rf2 hne g c hgc hg
    exact ⟨by rw [getEntry_removeEntry_ne g rf2 rf (Ne.symm hne)]; exact hg.1,
      getEntry_removeEntry_none g rf2 _ hg.2⟩
  have hQps : ∀ (rf2 : Path) (s : St),
      (s.err ≠ none ∨ (getEntry s.fs rf = none ∧ Event.removed rf ∈ s.evs)) →
      ((pruneStep src rep s rf2).err ≠ none ∨
        (getEntry (pruneStep src rep s rf2).fs rf = none ∧
          Event.removed rf ∈ (pruneStep src rep s rf2).evs)) := by
    intro rf2 s hs
    rcases hs with herr | ⟨hnone, hev⟩
    · left
      rw [pruneStep_frozen src rep s rf2 (err_isSome_of_ne herr)]
      exact herr
    · rcases pruneStep_cases src rep s rf2 with h | h | h
      · rw [h]
        exact Or.inr ⟨hnone, hev⟩
      · exact Or.inl h.2.2
      · obtain ⟨-, -, c2, -, heq⟩ := h
        right
        rw [heq]
        exact ⟨getEntry_removeEntry_none s.fs rf2 rf hnone,
          List.mem_append_left _ hev⟩
  apply sync_prune_reach fp fs0 src rep
    (fun st => getEntry st.fs rf = some (Entry.file c0) ∧
      getEntry st.fs (replaceFirst rf rep src) = none)
    (fun st => st.err ≠ none ∨
      (getEntry st.fs rf = none ∧ Event.removed rf ∈ st.evs))
    dp hdpA
  case hP0 =>
    exact hA
  case hPp =>
    intro st d hd hne hP2
    refine pruneDir_fsP
      (fun g => getEntry g rf = some (Entry.file c0) ∧
        getEntry g (replaceFirst rf rep src) = none)
      src rep _ st d ?_ hP2
    intro g c rf2 hrf2 hgc hg
    have hne2 : rf2 ≠ rf := by
      intro h
      subst h
      exact hne (childFiles_parent_unique _ d dp rf2 hrf2 hrfA)
    exact hPremove rf2 hne2 g c hgc hg
  case hest =>
    intro st hP2
    refine pruneDir_reach
      (fun s => getEntry s.fs rf = some (Entry.file c0) ∧
        getEntry s.fs (replaceFirst rf rep src) = none)
      (fun s => s.err ≠ none ∨
        (getEntry s.fs rf = none ∧ Event.removed rf ∈ s.evs))
      src rep _ dp rf hrfA ?_ ?_ ?_ st hP2
    · intro s rf2 hrf2 hne hs
      refine pruneStep_fsP
        (fun g => getEntry g rf = some (Entry.file c0) ∧
          getEntry g (replaceFirst rf rep src) = none)
        src rep s rf2 ?_ hs
      intro g c hgc hg
      exact hPremove rf2 hne g c hgc hg
    · intro s hs
      cases hserr : s.err with
      | some e =>
        left
        rw [pruneStep_frozen src rep s rf (by rw [hserr]; rfl), hserr]
        exact fun h => Option.noConfusion h
      | none =>
        rw [pruneStep_remove src rep s rf c0 hserr
          (by unfold existsPath; rw [hs.2]; exact fun h => h rfl) hs.1]
        right
        exact ⟨getEntry_removeEntry_self s.fs rf,
          List.mem_append_right _ (List.mem_singleton.mpr rfl)⟩
    · intro s rf2 hrf2 hs
      exact hQps rf2 s hs
  case hQp =>
    intro st d hd hQ2
    unfold pruneDir
    refine @foldl_pres Path St
      (fun s => s.err ≠ none ∨
        (getEntry s.fs rf = none ∧ Event.removed rf ∈ s.evs))
      _ _ _ hQ2 ?_
    intro rf2 hrf2 s hs
    exact hQps rf2 s hs

theorem sync_prune_removes_witness :
    getEntry (sync_folders wid wFs2 wS wR).fs wRA = none ∧
    Event.removed wRA ∈ (sync_folders wid wFs2 wS wR).evs := by
  rcases sync_prune_removes wid wFs2 wS wR (by decide) (by decide) (by decide)
    wR wRA (by decide) (by decide) (by decide) with herr | hok
  · exact absurd (by decide : (sync_folders wid wFs2 wS wR).err = none) herr
  · exact hok

/-- C4: idempotence — if a run of `sync_folders` completes without an
uncaught exception and the source tree is unchanged, a second run on the
resulting filesystem performs no mutation at all: it returns the same
filesystem, emits zero log events (no copy, no delete, no directory
creation), and raises no error. -/
theorem sync_idempotent (fp : List Nat → List Nat) (fs0 : Fs) (src rep : Path)
    (hd1 : ¬ src <+: rep) (hd2 : ¬ rep <+: src)
    (hnd : (fs0.map Prod.fst).Nodup)
    (hok : (sync_folders fp fs0 src rep).err = none) :
    sync_folders fp (sync_folders fp fs0 src rep).fs src rep =
      ⟨(sync_folders fp fs0 src rep).fs, [], none⟩ := by
  have hstab := sync_walk_stable fp fs0 src rep hd1 hd2
  have hnd1 : ((sync_folders fp fs0 src rep).fs.map Prod.fst).Nodup :=
    sync_nodup fp fs0 src rep hnd
  apply sync_noop_of_stable
  · intro d hd
    rw [hstab.1] at hd
    rcases sync_mirror_exists fp fs0 src rep hnd d hd with herr | hex
    · exact absurd hok herr
    · exact hex
  · intro d sf hd hsf
    rw [hstab.1] at hd
    rw [hstab.2 d hd] at hsf
    have hpre : src <+: d := isUnder_pre src d ((walkDirs_mem fs0 src d).mp hd).2
    have hsfp : d ++ ['/'] <+: sf := ((childFiles_mem fs0 d sf).mp hsf).2.1
    obtain ⟨c, hc⟩ := childFiles_entry fs0 d sf hnd hsf
    rcases sync_file_propagation fp fs0 src rep hd1 hd2 hnd d sf hd hsf c hc with
      herr | ⟨hsfe, c', hrfe, hcalc, -⟩
    · exact absurd hok herr
    · refine ⟨c, c', hsfe, ?_, hcalc.symm⟩
      rw [targetOf_mirror src rep d sf hpre hsfp]
      exact hrfe
  · intro d rf hd hrf
    have hsub := sync_fs_sub_phaseA fp fs0 src rep
    obtain ⟨hmemd, hu⟩ := (walkDirs_mem _ rep d).mp hd
    obtain ⟨⟨c, hmemf⟩, hrest⟩ := (childFiles_mem _ d rf).mp hrf
    have hdA : d ∈ walkDirs (syncPhaseA fp fs0 src rep).fs rep :=
      (walkDirs_mem _ rep d).mpr ⟨hsub.subset hmemd, hu⟩
    have hrfA : rf ∈ childFiles (syncPhaseA fp fs0 src rep).fs d :=
      (childFiles_mem _ d rf).mpr ⟨⟨c, hsub.subset hmemf⟩, hrest⟩
    rcases sync_walked_file_resolved fp fs0 src rep hd1 hd2 d rf hdA hrfA with
      herr | hnone | hex
    · exact absurd hok herr
    · exact absurd (mem_getEntry_of_nodup _ rf _ hnd1 hmemf)
        (by rw [hnone]; exact fun h => Option.noConfusion h)
    · exact hex

theorem sync_idempotent_witness :
    sync_folders wid (sync_folders wid wFs1 wS wR).fs wS wR =
      ⟨(sync_folders wid wFs1 wS wR).fs, [], none⟩ :=
  sync_idempotent wid wFs1 wS wR (by decide) (by decide) (by decide) (by decide)

end FolderSync
